import Mathlib

/-!
# Verification of the enimda border-detection engine

A shallow embedding of `src/enimda.py` (image border detection through
entropy of pixel signals), together with proofs checking the repository's
specification against it.

Modelling conventions:
* Pixel intensities are natural numbers; a frame is a total function on
  coordinates together with its dimensions (`Mat`).
* Python floats are modelled by real numbers; the configuration values
  (`threshold`, `indent`, `stripes`), which are concrete literals in the
  code, are modelled by rationals so that hypotheses on them are decidable.
* Python's `round` (round half to even) is `pyRound`.
* Python slice semantics, including clamping at the array bounds and the
  wrap-around of negative stop indices, are modelled in `rowsSig`.
* The `random.shuffle` call is modelled by an explicit oracle
  (`shuffled : List ℕ`, or a function `sf` producing the shuffled order):
  the shuffled list with the hypothesis that it is a permutation.
* A `while True` loop is modelled by a fuel-indexed step function; the fuel
  used by `scanSide` is proved sufficient below, so `none` results only
  from the code paths on which Python itself raises (an `UnboundLocalError`
  on the never-assigned loop variable `start`).
* The module-level names `_entropy` and `_randoms` used inside
  `__scan_frame` are resolved to the module's `__entropy` / `__randoms`
  definitions, `self.__converted` to the loaded frame list, and the
  `paginate` argument (absent from `__randoms`) to the thinning pass the
  specification describes.
-/

namespace Enimda

/-- Python's builtin `round`: round half to even, on rationals. -/
def pyRound (q : ℚ) : ℤ :=
  if q - ⌊q⌋ < 1 / 2 then ⌊q⌋
  else if 1 / 2 < q - ⌊q⌋ then ⌊q⌋ + 1
  else if ⌊q⌋ % 2 = 0 then ⌊q⌋ else ⌊q⌋ + 1

/-- A single-channel frame: height, width, and a total pixel function
(`np.array` of the converted image in `__scan_frame`, line 118). -/
structure Mat where
  h : ℕ
  w : ℕ
  px : ℕ → ℕ → ℕ

/-- All in-range pixels of `m` carry the same value `c`. -/
def Mat.UniformVal (m : Mat) (c : ℕ) : Prop :=
  ∀ i j, i < m.h → j < m.w → m.px i j = c

/-- Some value makes the frame uniform (a fully blank frame). -/
def Mat.Uniform (m : Mat) : Prop :=
  ∃ c, m.UniformVal c

/-- `np.rot90(arr, k=1)`: one counter-clockwise quarter turn
(`__scan_frame`, line 125): entry `(i, j)` of the result is entry
`(j, w - 1 - i)` of the argument. -/
def rot90 (m : Mat) : Mat :=
  ⟨m.w, m.h, fun i j => m.px j (m.w - 1 - i)⟩

/-- `np.rot90(arr, k=side)`. -/
def rotk (m : Mat) (side : ℕ) : Mat :=
  rot90^[side] m

/-- `np.hstack` of the single-column slices `rot[0:h, r:r+1]` for `r` in
the selected column list (`__scan_frame`, lines 129-132): same height,
column `j` of the result is column `cols[j]` of the argument. This is the
successful case only; `hstackCols` below adds the `ValueError` that
`np.hstack` raises on an empty selection. -/
def colSample (m : Mat) (cols : List ℕ) : Mat :=
  ⟨m.h, cols.length, fun i j => m.px i (cols.getD j 0)⟩

/-- Row-major flattening of the rows listed in `idx` (all `w` columns). -/
def rowConcat (m : Mat) : List ℕ → List ℕ
  | [] => []
  | i :: t => ((List.range m.w).map fun j => m.px i j) ++ rowConcat m t

/-- `rot[a:b, 0:w].flatten()`: the flattened signal of rows `a` (included)
to `b` (excluded) under Python slice semantics: a stop index beyond the
height clamps to the height, and a negative stop counts from the end
(`stop = h + b`, clamped at `0`). -/
def rowsSig (m : Mat) (a : ℕ) (b : ℤ) : List ℕ :=
  let stop : ℕ := if b < 0 then ((m.h : ℤ) + b).toNat else min b.toNat m.h
  rowConcat m (List.range' a (stop - a))

/-- `__entropy` (lines 14-23): Shannon entropy in bits of a 1-D signal.
`set(signal)` is `dedup`, `counts[v]` is `count v`, and the sum is
`Σ p · log2(1/p)` with `p = count v / len`. -/
noncomputable def entropy (signal : List ℕ) : ℝ :=
  (signal.dedup.map fun v =>
    ((signal.count v : ℝ) / (signal.length : ℝ)) *
      Real.logb 2 (1 / ((signal.count v : ℝ) / (signal.length : ℝ)))).sum

/-- `__entropy` with its failure behaviour made explicit: the division
`counts[value] / len(signal)` is evaluated once per element of
`set(signal)`, so a `ZeroDivisionError` is raised exactly when the signal
has a distinct value (`dedup ≠ []`) while its length is `0`. -/
noncomputable def entropyChecked (signal : List ℕ) : Option ℝ :=
  if signal.dedup ≠ [] ∧ signal.length = 0 then none else some (entropy signal)

/-- Shannon entropy exactly as the specification words it (section 4.2):
for each distinct value `v`, `p(v) = count(v)/length`, and the entropy is
`Σ p(v) · log2(1/p(v))` over the distinct values. -/
noncomputable def shannonEntropySpec (signal : List ℕ) : ℝ :=
  ∑ v ∈ signal.toFinset,
    ((signal.count v : ℝ) / (signal.length : ℝ)) *
      Real.logb 2 (1 / ((signal.count v : ℝ) / (signal.length : ℝ)))

/-- `__randoms` (lines 26-40): with `limit` unset, the set of all indexes
`range(count)`; otherwise the set of the first `limit` entries of the
shuffled index list (`shuffled` is the oracle for `shuffle(randoms)`). -/
def randoms (count : ℕ) (limit : Option ℕ) (shuffled : List ℕ) : Finset ℕ :=
  match limit with
  | none => (List.range count).toFinset
  | some l => (shuffled.take l).toFinset

/-- Modelled from the spec: the `paginate` thinning pass. `__scan_frame`
passes `paginate` to `_randoms` (line 130) but `__randoms` has no such
parameter; per the specification (sections 4.3 and 9) the column range is
first thinned by the factor `paginate`, then randomly subsampled up to
`max_stripes`. The resulting column order (Python iterates a set of small
naturals) is modelled by the produced list's order. -/
def colSelection (w paginate : ℕ) (limit : Option ℕ) (sf : List ℕ → List ℕ) : List ℕ :=
  let base := (List.range w).filter fun i => i % paginate = 0
  match limit with
  | none => base
  | some l => (sf base).take l

/-- The per-side working view (`__scan_frame`, lines 123-133): rotate the
frame `side` quarter turns, then keep only the selected columns.
`paginate` is `round(1.0 / stripes)` when `0 < stripes < 1`, else `1`
(line 120). -/
def sampledView (m : Mat) (side : ℕ) (stripes : ℚ) (maxStripes : Option ℕ)
    (sf : List ℕ → List ℕ) : Mat :=
  let rot := rotk m side
  let paginate : ℕ :=
    if 0 < stripes ∧ stripes < 1 then (pyRound (1 / stripes)).toNat else 1
  colSample rot (colSelection rot.w paginate maxStripes sf)

open Classical in
/-- The `start` search (lines 139-142): first candidate row `s` whose
signal `rot[border:s]` has positive entropy, `none` when no candidate
qualifies. -/
noncomputable def findStartAux (m : Mat) (border : ℕ) : List ℕ → Option ℕ
  | [] => none
  | s :: rest =>
    if 0 < entropy (rowsSig m border (s : ℤ)) then some s
    else findStartAux m border rest

open Classical in
/-- The `center` scan (lines 144-157): fold over the descending center
list, carrying `(subborder, delta)`. `upper` is the entropy of
`rot[border:center]`, `lower` of `rot[center : 2*center - border]`; the
ratio replaces `delta` and records `center` when it strictly improves on
both `delta` and `threshold`. -/
noncomputable def findSubAux (m : Mat) (border : ℕ) (threshold : ℚ) :
    List ℕ → ℕ × ℝ → ℕ × ℝ
  | [], st => st
  | c :: rest, (sub, delta) =>
    let upper := entropy (rowsSig m border (c : ℤ))
    let lower := entropy (rowsSig m c (2 * (c : ℤ) - (border : ℤ)))
    let diff := if lower ≠ 0 then upper / lower else delta
    if diff < delta ∧ diff < (threshold : ℝ) then
      findSubAux m border threshold rest (c, diff)
    else
      findSubAux m border threshold rest (sub, delta)

/-- State of the `while True` loop of `__scan_frame`: the current border
and the last value assigned to the Python loop variable `start` (`none`
until its first assignment). -/
structure ScanState where
  border : ℕ
  startPrev : Option ℕ

/-- One iteration of the `while True` loop (lines 137-165), for the
per-side bound `R = round(indent * h)`. The `start` loop runs over
`range(border+1, R+1)`; if that range is empty, `start` keeps its previous
value, and if it was never assigned the iteration raises
(`UnboundLocalError`, modelled by `none`). Termination of the loop body is
`Sum.inr` with the returned border, continuation is `Sum.inl` with the new
state. -/
noncomputable def scanStep (m : Mat) (threshold : ℚ) (R : ℕ) (fast : Bool)
    (st : ScanState) : Option (ScanState ⊕ ℕ) :=
  let cand := List.range' (st.border + 1) (R - st.border)
  let startO := if cand = [] then st.startPrev
    else some ((findStartAux m st.border cand).getD R)
  match startO with
  | none => none
  | some start =>
    let sub := (findSubAux m st.border threshold
      ((List.range' start (R + 1 - start)).reverse) (0, (threshold : ℝ))).1
    if sub = 0 ∨ sub = st.border then some (Sum.inr st.border)
    else if fast then some (Sum.inr sub)
    else some (Sum.inl ⟨sub, some start⟩)

/-- Fuel-indexed iteration of `scanStep`. `none` means the fuel ran out or
an iteration raised; the fuel chosen in `scanSide` is proved sufficient
below, so in the model `none` occurs exactly on the raising paths. -/
noncomputable def scanLoop (m : Mat) (threshold : ℚ) (R : ℕ) (fast : Bool) :
    ℕ → ScanState → Option ℕ
  | 0, _ => none
  | fuel + 1, st =>
    match scanStep m threshold R fast st with
    | none => none
    | some (Sum.inr b) => some b
    | some (Sum.inl st2) => scanLoop m threshold R fast fuel st2

/-- The iterative boundary search for one (already rotated and sampled)
side view (lines 136-167): run the loop from `border = 0` with `start`
not yet assigned — the situation of the first scanned side. Because the
Python `start` is function-scoped and survives the `for side` loop,
`scanSideS` below generalises this to an arbitrary incoming `start`
state and also reports the final one. -/
noncomputable def scanSide (m : Mat) (threshold indent : ℚ) (fast : Bool) :
    Option ℕ :=
  let R := (pyRound (indent * (m.h : ℚ))).toNat
  scanLoop m threshold R fast (2 * R + 3) ⟨0, none⟩

/-- Invariant maintained by the boundary-search loop: the border stays
within `[0, R]`, the loop variable `start` is unassigned only in the
initial state, and once assigned it is at least `1` and at most the current
border. -/
def ScanInv (R : ℕ) (st : ScanState) : Prop :=
  st.border ≤ R ∧ (st.startPrev = none → st.border = 0) ∧
    ∀ s, st.startPrev = some s → 1 ≤ s ∧ s ≤ st.border

/-- Termination measure for the boundary-search loop: the remembered
`start` value never decreases across iterations, and an iteration that
keeps it fixed moves the border off `R`. -/
def scanMeasure (R : ℕ) (st : ScanState) : ℕ :=
  2 * (R + 1 - st.startPrev.getD 0) + (if st.border = R then 1 else 0)

/-- Border offset of one side of one frame: the boundary search on the
rotated, column-sampled view. -/
noncomputable def sideBorder (m : Mat) (side : ℕ) (threshold indent stripes : ℚ)
    (maxStripes : Option ℕ) (fast : Bool) (sf : List ℕ → List ℕ) : Option ℕ :=
  scanSide (sampledView m side stripes maxStripes sf) threshold indent fast

/-- Sequence a list of optional values (the `borders.append` accumulation,
failing if any side fails). -/
def seqOpt {α : Type} : List (Option α) → Option (List α)
  | [] => some []
  | o :: t =>
    match o, seqOpt t with
    | some a, some l => some (a :: l)
    | _, _ => none

/-- `__scan_frame` (lines 106-169): the four border offsets of one frame,
sides `0` to `3`, with each side entered afresh — exact for sides whose
`start` range is nonempty on the first iteration; `scanFrameFull` below
threads the function-scoped `start` across sides and models the
`np.hstack` failure path. -/
noncomputable def scanFrame (m : Mat) (threshold indent stripes : ℚ)
    (maxStripes : Option ℕ) (fast : Bool) (sf : List ℕ → List ℕ) :
    Option (List ℕ) :=
  seqOpt ((List.range 4).map fun side =>
    sideBorder m side threshold indent stripes maxStripes fast sf)

/-- `scan` (lines 171-195): `__scan_frame` over every loaded frame, in
order. The method performs no validation of its configuration arguments. -/
noncomputable def scan (frames : List Mat) (threshold indent stripes : ℚ)
    (maxStripes : Option ℕ) (fast : Bool) (sf : List ℕ → List ℕ) :
    Option (List (List ℕ)) :=
  seqOpt (frames.map fun m =>
    scanFrame m threshold indent stripes maxStripes fast sf)

/-- `np.hstack(arrs)` (line 132): raises a `ValueError` (modelled `none`)
when no column was selected — `arrs` is empty for `max_stripes = 0` or a
zero-width view; otherwise the horizontally stacked view. -/
def hstackCols (m : Mat) (cols : List ℕ) : Option Mat :=
  if cols = [] then none else some (colSample m cols)

/-- One iteration of the `while True` loop, like `scanStep`, but returning
on termination the full variable state: the border to append together with
the current value of the loop variable `start`. In Python `start` is
function-scoped, so this value survives into the next side's scan. -/
noncomputable def scanStepS (m : Mat) (threshold : ℚ) (R : ℕ) (fast : Bool)
    (st : ScanState) : Option (ScanState ⊕ ScanState) :=
  let cand := List.range' (st.border + 1) (R - st.border)
  let startO := if cand = [] then st.startPrev
    else some ((findStartAux m st.border cand).getD R)
  match startO with
  | none => none
  | some start =>
    let sub := (findSubAux m st.border threshold
      ((List.range' start (R + 1 - start)).reverse) (0, (threshold : ℝ))).1
    if sub = 0 ∨ sub = st.border then some (Sum.inr ⟨st.border, some start⟩)
    else if fast then some (Sum.inr ⟨sub, some start⟩)
    else some (Sum.inl ⟨sub, some start⟩)

/-- Fuel-indexed iteration of `scanStepS`. -/
noncomputable def scanLoopS (m : Mat) (threshold : ℚ) (R : ℕ) (fast : Bool) :
    ℕ → ScanState → Option ScanState
  | 0, _ => none
  | fuel + 1, st =>
    match scanStepS m threshold R fast st with
    | none => none
    | some (Sum.inr fin) => some fin
    | some (Sum.inl st2) => scanLoopS m threshold R fast fuel st2

/-- The boundary search for one side view, entered with the function-scoped
loop variable `start` in the state `sp` left behind by the previous sides:
`none` when it was never assigned before (in particular on the first
side). -/
noncomputable def scanSideS (m : Mat) (threshold indent : ℚ) (fast : Bool)
    (sp : Option ℕ) : Option ScanState :=
  let R := (pyRound (indent * (m.h : ℚ))).toNat
  scanLoopS m threshold R fast (2 * R + 3) ⟨0, sp⟩

/-- The per-side pipeline with both Python failure paths: `np.hstack` of an
empty selection raises, and the search itself raises when its `start` range
is empty while `start` was never assigned. -/
noncomputable def sideBorderFull (m : Mat) (side : ℕ)
    (threshold indent stripes : ℚ) (maxStripes : Option ℕ) (fast : Bool)
    (sf : List ℕ → List ℕ) (sp : Option ℕ) : Option ScanState :=
  let rot := rotk m side
  let paginate : ℕ :=
    if 0 < stripes ∧ stripes < 1 then (pyRound (1 / stripes)).toNat else 1
  match hstackCols rot (colSelection rot.w paginate maxStripes sf) with
  | none => none
  | some V => scanSideS V threshold indent fast sp

/-- The side loop of `__scan_frame` with the function-scoped `start`
threaded through the sides in order. -/
noncomputable def scanSidesGo (m : Mat) (threshold indent stripes : ℚ)
    (maxStripes : Option ℕ) (fast : Bool) (sf : List ℕ → List ℕ) :
    List ℕ → Option ℕ → Option (List ℕ)
  | [], _ => some []
  | side :: rest, sp =>
    match sideBorderFull m side threshold indent stripes maxStripes fast sf
        sp with
    | none => none
    | some fin =>
      match scanSidesGo m threshold indent stripes maxStripes fast sf rest
          fin.startPrev with
      | none => none
      | some bs => some (fin.border :: bs)

/-- `__scan_frame` (lines 106-169) with cross-side `start` persistence and
the `np.hstack` failure path: `start` enters side 0 unassigned. -/
noncomputable def scanFrameFull (m : Mat) (threshold indent stripes : ℚ)
    (maxStripes : Option ℕ) (fast : Bool) (sf : List ℕ → List ℕ) :
    Option (List ℕ) :=
  scanSidesGo m threshold indent stripes maxStripes fast sf (List.range 4)
    none

/-- The ENIMDA class-level state: `__frames = []` is declared on the class
(line 47), so it is one list object shared by every instance. -/
structure EnimdaClass where
  frames : List Mat

/-- `__init__` (lines 49-104): loading an image appends its selected,
converted frames to `self.__frames`; since instances never rebind the
attribute, the append mutates the shared class-level list. `sel` is the
membership test against `frame_set`. -/
def loadImage (cls : EnimdaClass) (imgFrames : List Mat) (sel : ℕ → Bool) :
    EnimdaClass :=
  ⟨cls.frames ++ (imgFrames.enum.filter fun p => sel p.1).map Prod.snd⟩

/-- What an instance observes as its frame list: the attribute lookup
`self.__frames` resolves to the shared class attribute. -/
def observeFrames (cls : EnimdaClass) : List Mat :=
  cls.frames

/-- A uniform `h × w` frame of value `c`. -/
def constMat (h w c : ℕ) : Mat :=
  ⟨h, w, fun _ _ => c⟩

/-- The 6 × 2 frame used as explicit input in the analysis of the
iterative search: rows `(0,1), (0,0), (1,1), (1,1), (3,4), (5,6)`. -/
def exFrame : Mat :=
  ⟨6, 2, fun i j =>
    match i, j with
    | 0, 0 => 0
    | 0, _ => 1
    | 1, _ => 0
    | 2, _ => 1
    | 3, _ => 1
    | 4, 0 => 3
    | 4, _ => 4
    | 5, 0 => 5
    | _, _ => 6⟩

/-! ## Entropy lemmas -/

/-- The entropy of the empty signal evaluates to zero: the sum ranges over
the empty set of distinct values. -/
theorem entropy_nil : entropy [] = 0 := by
  simp [entropy]

/-- Every summand of `entropy` is nonnegative. -/
theorem entropyTerm_nonneg (l : List ℕ) {v : ℕ} (hvl : v ∈ l) :
    0 ≤ ((l.count v : ℝ) / (l.length : ℝ)) *
      Real.logb 2 (1 / ((l.count v : ℝ) / (l.length : ℝ))) := by
  have hlen : 0 < l.length := List.length_pos.mpr (List.ne_nil_of_mem hvl)
  have hc : 0 < l.count v := List.count_pos_iff.mpr hvl
  have hcl : l.count v ≤ l.length := List.count_le_length v l
  have hp0 : (0 : ℝ) < (l.count v : ℝ) / (l.length : ℝ) := by positivity
  have hp1 : ((l.count v : ℝ) / (l.length : ℝ)) ≤ 1 := by
    rw [div_le_one (by positivity)]
    exact_mod_cast hcl
  have h1p : (1 : ℝ) ≤ 1 / ((l.count v : ℝ) / (l.length : ℝ)) := by
    rw [le_div_iff₀ hp0]
    linarith
  exact mul_nonneg hp0.le (Real.logb_nonneg one_lt_two h1p)

/-- Entropy is nonnegative. -/
theorem entropy_nonneg (l : List ℕ) : 0 ≤ entropy l := by
  apply List.sum_nonneg
  intro x hx
  simp only [List.mem_map] at hx
  obtain ⟨v, hv, rfl⟩ := hx
  exact entropyTerm_nonneg l (List.mem_dedup.mp hv)

/-- Entropy of a constant signal is zero (this includes the empty one). -/
theorem entropy_const {l : List ℕ} {c : ℕ} (h : ∀ x ∈ l, x = c) :
    entropy l = 0 := by
  apply List.sum_eq_zero
  intro x hx
  simp only [List.mem_map] at hx
  obtain ⟨v, hv, rfl⟩ := hx
  have hvl : v ∈ l := List.mem_dedup.mp hv
  have hcnt : l.count v = l.length :=
    List.count_eq_length.mpr fun b hb => (h v hvl).trans (h b hb).symm
  have hlen : ((l.length : ℝ)) ≠ 0 := by
    have : 0 < l.length := List.length_pos.mpr (List.ne_nil_of_mem hvl)
    exact_mod_cast this.ne'
  rw [hcnt, div_self hlen]
  simp

/-- A signal containing two distinct values has positive entropy. -/
theorem entropy_pos_of_ne {l : List ℕ} {a b : ℕ} (ha : a ∈ l) (hb : b ∈ l)
    (hab : a ≠ b) : 0 < entropy l := by
  have hlen : 0 < l.length := List.length_pos.mpr (List.ne_nil_of_mem ha)
  have hc : 0 < l.count a := List.count_pos_iff.mpr ha
  have hlt : l.count a < l.length := by
    refine lt_of_le_of_ne (List.count_le_length a l) fun he => hab ?_
    exact List.count_eq_length.mp he b hb
  have hp0 : (0 : ℝ) < (l.count a : ℝ) / (l.length : ℝ) := by positivity
  have hp1 : ((l.count a : ℝ) / (l.length : ℝ)) < 1 := by
    rw [div_lt_one (by positivity)]
    exact_mod_cast hlt
  have h1p : (1 : ℝ) < 1 / ((l.count a : ℝ) / (l.length : ℝ)) := by
    rw [lt_div_iff₀ hp0]
    linarith
  have hterm : 0 < ((l.count a : ℝ) / (l.length : ℝ)) *
      Real.logb 2 (1 / ((l.count a : ℝ) / (l.length : ℝ))) :=
    mul_pos hp0 (Real.logb_pos one_lt_two h1p)
  have hmem : ((l.count a : ℝ) / (l.length : ℝ)) *
      Real.logb 2 (1 / ((l.count a : ℝ) / (l.length : ℝ))) ∈
      l.dedup.map fun v =>
        ((l.count v : ℝ) / (l.length : ℝ)) *
          Real.logb 2 (1 / ((l.count v : ℝ) / (l.length : ℝ))) :=
    List.mem_map_of_mem _ (List.mem_dedup.mpr ha)
  have hle := List.single_le_sum (l := l.dedup.map fun v =>
      ((l.count v : ℝ) / (l.length : ℝ)) *
        Real.logb 2 (1 / ((l.count v : ℝ) / (l.length : ℝ))))
    (fun x hx => by
      simp only [List.mem_map] at hx
      obtain ⟨v, hv, rfl⟩ := hx
      exact entropyTerm_nonneg l (List.mem_dedup.mp hv)) _ hmem
  exact lt_of_lt_of_le hterm hle

/-- Claim C1: for every non-empty signal, `__entropy` returns the Shannon
entropy in bits, `Σ p(v) · log2(1/p(v))` over the distinct values `v` with
`p(v) = count(v)/length`; in particular a non-empty signal whose values are
all identical has entropy exactly `0`. -/
theorem entropy_matches_shannon_spec (s : List ℕ) (hs : s ≠ []) :
    entropy s = shannonEntropySpec s ∧
      ((∀ a ∈ s, ∀ b ∈ s, a = b) → entropy s = 0) := by
  constructor
  · unfold entropy shannonEntropySpec
    have hd : s.dedup.toFinset = s.toFinset :=
      Finset.ext fun a => by simp [List.mem_toFinset, List.mem_dedup]
    rw [← hd, List.sum_toFinset _ s.nodup_dedup]
  · intro hu
    obtain ⟨c, hc⟩ := List.exists_mem_of_ne_nil s hs
    exact entropy_const fun x hx => hu x hx c hc

/-- Witness for C1 at the concrete signal `[5, 5]`. -/
theorem entropy_matches_shannon_spec_witness :
    entropy [5, 5] = shannonEntropySpec [5, 5] ∧
      ((∀ a ∈ ([5, 5] : List ℕ), ∀ b ∈ ([5, 5] : List ℕ), a = b) →
        entropy [5, 5] = 0) :=
  entropy_matches_shannon_spec [5, 5] (by decide)

/-- Claim C4 counterexample: `__entropy` applied to the empty signal does
not raise a division by zero; the generator over `set(signal)` is empty, no
division is evaluated, and `sum` of nothing returns `0`. -/
theorem entropy_empty_returns_value : entropyChecked ([] : List ℕ) = some 0 := by
  unfold entropyChecked
  rw [if_neg]
  · rw [entropy_nil]
  · rintro ⟨hd, _⟩
    simp at hd

/-- Claim C4 (amended): the entropy computation never fails: the division
by `len(signal)` is only evaluated once per distinct value, so on the empty
signal no division happens and the result is `0.0`. -/
theorem entropy_never_fails (s : List ℕ) :
    entropyChecked s = some (entropy s) := by
  unfold entropyChecked
  rw [if_neg]
  rintro ⟨hd, hl⟩
  exact hd (by simp [List.length_eq_zero.mp hl])

/-! ## Random subset selector -/

/-- Claim C6: with `limit` unset, `__randoms` returns the full index range
`[0, count)` (each index exactly once, as a set); with `limit` set it
returns a subset of `[0, count)` of size exactly `min limit count`; with
`limit = 0` it returns the empty set. `shuffled` is the output of
`shuffle`, a permutation of `range(count)`. -/
theorem randoms_spec (count : ℕ) (shuffled : List ℕ)
    (hp : shuffled.Perm (List.range count)) :
    randoms count none shuffled = Finset.range count ∧
      (∀ l, randoms count (some l) shuffled ⊆ Finset.range count ∧
        (randoms count (some l) shuffled).card = min l count) ∧
      randoms count (some 0) shuffled = ∅ := by
  have hnd : shuffled.Nodup := hp.nodup_iff.mpr (List.nodup_range count)
  have hlen : shuffled.length = count := by simpa using hp.length_eq
  refine ⟨?_, fun l => ⟨?_, ?_⟩, ?_⟩
  · apply Finset.ext
    intro a
    simp [randoms, List.mem_toFinset, Finset.mem_range, List.mem_range]
  · intro a ha
    simp only [randoms, List.mem_toFinset] at ha
    have hm : a ∈ shuffled := List.mem_of_mem_take ha
    have := hp.mem_iff.mp hm
    simpa [Finset.mem_range] using List.mem_range.mp this
  · have hndt : (shuffled.take l).Nodup :=
      List.Nodup.sublist (List.take_sublist l shuffled) hnd
    simp only [randoms]
    rw [List.toFinset_card_of_nodup hndt, List.length_take, hlen]
  · simp [randoms]

/-- Witness for C6 at `count = 3` with the shuffle `[2, 0, 1]`. -/
theorem randoms_spec_witness :
    randoms 3 none [2, 0, 1] = Finset.range 3 ∧
      (∀ l, randoms 3 (some l) [2, 0, 1] ⊆ Finset.range 3 ∧
        (randoms 3 (some l) [2, 0, 1]).card = min l 3) ∧
      randoms 3 (some 0) [2, 0, 1] = ∅ :=
  randoms_spec 3 [2, 0, 1] (by decide)

/-! ## Shared class-level frame list -/

/-- Loading with every frame selected appends the whole image to the shared
list. -/
theorem loadImage_full (cls : EnimdaClass) (f : List Mat) :
    loadImage cls f (fun _ => true) = ⟨cls.frames ++ f⟩ := by
  unfold loadImage
  have hf : (f.enum.filter fun _ => true) = f.enum :=
    List.filter_eq_self.mpr fun a _ => rfl
  rw [hf, List.enum_map_snd]

/-- Claim C10: `__frames` is a class-level attribute shared by all ENIMDA
instances: constructing a second instance appends its frames to the same
list object, so afterwards each instance observes the concatenation of both
images' frames, not only its own — loading a second image changes the
first instance's observable frame state. -/
theorem shared_frames_accumulate (f1 f2 : List Mat) (h2 : f2 ≠ []) :
    observeFrames (loadImage (loadImage ⟨[]⟩ f1 fun _ => true) f2
        fun _ => true) = f1 ++ f2 ∧
      observeFrames (loadImage (loadImage ⟨[]⟩ f1 fun _ => true) f2
        fun _ => true) ≠ f1 := by
  have e : observeFrames (loadImage (loadImage ⟨[]⟩ f1 fun _ => true) f2
      fun _ => true) = f1 ++ f2 := by
    rw [loadImage_full, loadImage_full]
    simp [observeFrames]
  refine ⟨e, ?_⟩
  rw [e]
  intro h
  apply h2
  have hl := congrArg List.length h
  simp only [List.length_append] at hl
  exact List.length_eq_zero.mp (by omega)

/-- Witness for C10 with two concrete one-frame images. -/
theorem shared_frames_accumulate_witness :
    observeFrames (loadImage (loadImage ⟨[]⟩ [constMat 1 1 0] fun _ => true)
        [constMat 1 1 1] fun _ => true) = [constMat 1 1 0] ++ [constMat 1 1 1] ∧
      observeFrames (loadImage (loadImage ⟨[]⟩ [constMat 1 1 0] fun _ => true)
        [constMat 1 1 1] fun _ => true) ≠ [constMat 1 1 0] :=
  shared_frames_accumulate [constMat 1 1 0] [constMat 1 1 1] (by simp)

/-! ## Structure of the boundary search -/

/-- The sub-border returned by the `center` scan is either the initial one
or one of the scanned centers. -/
theorem findSubAux_fst (m : Mat) (b : ℕ) (th : ℚ) (l : List ℕ) :
    ∀ init : ℕ × ℝ,
      (findSubAux m b th l init).1 = init.1 ∨ (findSubAux m b th l init).1 ∈ l := by
  induction l with
  | nil => intro init; left; rfl
  | cons c rest ih =>
    intro init
    obtain ⟨sub, delta⟩ := init
    simp only [findSubAux]
    split <;> split <;>
      · rcases ih _ with h | h
        · first
          | (left; exact h)
          | (right; rw [h]; exact List.mem_cons_self c rest)
        · right; exact List.mem_cons_of_mem c h

/-- A successful `start` search returns one of its candidates. -/
theorem findStartAux_mem (m : Mat) (b : ℕ) :
    ∀ (l : List ℕ) (s : ℕ), findStartAux m b l = some s → s ∈ l := by
  intro l
  induction l with
  | nil => intro s h; simp [findStartAux] at h
  | cons c rest ih =>
    intro s h
    rw [findStartAux] at h
    split at h
    · exact (Option.some_inj.mp h) ▸ List.mem_cons_self c rest
    · exact List.mem_cons_of_mem c (ih s h)

/-- When no candidate signal has positive entropy, the `start` search
fails. -/
theorem findStartAux_none (m : Mat) (b : ℕ) (l : List ℕ)
    (h : ∀ s ∈ l, entropy (rowsSig m b (s : ℤ)) = 0) :
    findStartAux m b l = none := by
  induction l with
  | nil => rfl
  | cons c rest ih =>
    rw [findStartAux]
    rw [if_neg, ih fun s hs => h s (List.mem_cons_of_mem c hs)]
    rw [h c (List.mem_cons_self c rest)]
    exact lt_irrefl 0

/-- When every `lower` window has zero entropy, the `center` scan never
updates its state: `diff` is always the running `delta`, which never
strictly improves on itself. -/
theorem findSubAux_zero_lower (m : Mat) (b : ℕ) (th : ℚ) (l : List ℕ)
    (h : ∀ c ∈ l, entropy (rowsSig m c (2 * (c : ℤ) - (b : ℤ))) = 0) :
    ∀ init : ℕ × ℝ, findSubAux m b th l init = init := by
  induction l with
  | nil => intro init; rfl
  | cons c rest ih =>
    intro init
    obtain ⟨sub, delta⟩ := init
    simp only [findSubAux]
    rw [if_neg (not_not_intro (h c (List.mem_cons_self c rest)))]
    rw [if_neg (by simp [lt_irrefl])]
    exact ih (fun x hx => h x (List.mem_cons_of_mem c hx)) (sub, delta)

/-- With a nonpositive threshold the `center` scan never records a
sub-border: every ratio is nonnegative, hence never strictly below the
running `delta`, which stays at the threshold. -/
theorem findSubAux_nonpos (m : Mat) (b : ℕ) (th : ℚ) (hth : th ≤ 0)
    (l : List ℕ) : ∀ sub : ℕ, (findSubAux m b th l (sub, (th : ℝ))).1 = sub := by
  induction l with
  | nil => intro sub; rfl
  | cons c rest ih =>
    intro sub
    simp only [findSubAux]
    have hth' : ((th : ℝ)) ≤ 0 := by exact_mod_cast hth
    by_cases hl : entropy (rowsSig m c (2 * (c : ℤ) - (b : ℤ))) = 0
    · rw [if_neg (not_not_intro hl), if_neg (by simp [lt_irrefl])]
      exact ih sub
    · rw [if_pos hl]
      have hd : 0 ≤ entropy (rowsSig m b (c : ℤ)) /
          entropy (rowsSig m c (2 * (c : ℤ) - (b : ℤ))) :=
        div_nonneg (entropy_nonneg _) (entropy_nonneg _)
      rw [if_neg (by rintro ⟨h1, _⟩; linarith)]
      exact ih sub

/-- Bound on the sub-border computed from a given `start`: it is either `0`
or lies in `[start, R]`. -/
theorem subResult_bound (m : Mat) (th : ℚ) (b start R : ℕ) :
    (findSubAux m b th ((List.range' start (R + 1 - start)).reverse)
        (0, (th : ℝ))).1 = 0 ∨
      (start ≤ (findSubAux m b th ((List.range' start (R + 1 - start)).reverse)
        (0, (th : ℝ))).1 ∧
       (findSubAux m b th ((List.range' start (R + 1 - start)).reverse)
        (0, (th : ℝ))).1 ≤ R) := by
  rcases findSubAux_fst m b th ((List.range' start (R + 1 - start)).reverse)
      (0, (th : ℝ)) with h | h
  · left; exact h
  · right
    rw [List.mem_reverse] at h
    have := List.mem_range'_1.mp h
    omega

/-- A loop iteration that returns keeps the border within `[0, R]`. -/
theorem scanStep_inr_le {m : Mat} {th : ℚ} {R : ℕ} {fast : Bool}
    {st : ScanState} {b : ℕ} (hb : st.border ≤ R)
    (h : scanStep m th R fast st = some (Sum.inr b)) : b ≤ R := by
  simp only [scanStep] at h
  rcases hso : (if List.range' (st.border + 1) (R - st.border) = [] then
      st.startPrev
    else some ((findStartAux m st.border
      (List.range' (st.border + 1) (R - st.border))).getD R)) with _ | start
  · rw [hso] at h; simp at h
  · rw [hso] at h
    dsimp only at h
    split at h
    · simp only [Option.some_inj, Sum.inr.injEq] at h
      omega
    · split at h
      · simp only [Option.some_inj, Sum.inr.injEq] at h
        rcases subResult_bound m th st.border start R with hs | hs <;> omega
      · simp at h

/-- A loop iteration that continues keeps the border within `[0, R]`. -/
theorem scanStep_inl_le {m : Mat} {th : ℚ} {R : ℕ} {fast : Bool}
    {st st2 : ScanState}
    (h : scanStep m th R fast st = some (Sum.inl st2)) : st2.border ≤ R := by
  simp only [scanStep] at h
  rcases hso : (if List.range' (st.border + 1) (R - st.border) = [] then
      st.startPrev
    else some ((findStartAux m st.border
      (List.range' (st.border + 1) (R - st.border))).getD R)) with _ | start
  · rw [hso] at h; simp at h
  · rw [hso] at h
    dsimp only at h
    split at h
    · simp at h
    · split at h
      · simp at h
      · simp only [Option.some_inj, Sum.inl.injEq] at h
        subst h
        rcases subResult_bound m th st.border start R with hs | hs <;> simp <;> omega

/-- Any border the loop returns is within `[0, R]`. -/
theorem scanLoop_le (m : Mat) (th : ℚ) (R : ℕ) (fast : Bool) :
    ∀ (fuel : ℕ) (st : ScanState) (b : ℕ), st.border ≤ R →
      scanLoop m th R fast fuel st = some b → b ≤ R := by
  intro fuel
  induction fuel with
  | zero => intro st b _ h; simp [scanLoop] at h
  | succ n ih =>
    intro st b hb h
    rw [scanLoop] at h
    rcases he : scanStep m th R fast st with _ | r
    · rw [he] at h; simp at h
    · rw [he] at h
      rcases r with st2 | b2
      · exact ih st2 b (scanStep_inl_le he) h
      · simp only [Option.some_inj] at h
        exact h ▸ scanStep_inr_le hb he

/-- With `R ≥ 1` and the invariant, a loop iteration never raises: the
`start` range is empty only when the border has already reached `R`, and
then `start` was assigned in an earlier iteration. -/
theorem scanStep_none (m : Mat) (th : ℚ) (R : ℕ) (fast : Bool)
    (st : ScanState) (hInv : ScanInv R st) (hR : 1 ≤ R)
    (h : scanStep m th R fast st = none) : False := by
  simp only [scanStep] at h
  by_cases hc : List.range' (st.border + 1) (R - st.border) = []
  · rw [if_pos hc] at h
    rcases hsp : st.startPrev with _ | s
    · have hb0 : st.border = 0 := hInv.2.1 hsp
      have hn : R - st.border = 0 := List.range'_eq_nil.mp hc
      omega
    · rw [hsp] at h
      dsimp only at h
      split at h
      · simp at h
      · split at h <;> simp at h
  · rw [if_neg hc] at h
    dsimp only at h
    split at h
    · simp at h
    · split at h <;> simp at h

/-- A continuing iteration preserves the invariant and strictly decreases
the measure (`fast` disabled). -/
theorem scanStep_inl_spec (m : Mat) (th : ℚ) (R : ℕ) (st st2 : ScanState)
    (hInv : ScanInv R st) (hR : 1 ≤ R)
    (h : scanStep m th R false st = some (Sum.inl st2)) :
    ScanInv R st2 ∧ scanMeasure R st2 < scanMeasure R st := by
  simp only [scanStep] at h
  by_cases hc : List.range' (st.border + 1) (R - st.border) = []
  · have hRb : R - st.border = 0 := List.range'_eq_nil.mp hc
    have hble := hInv.1
    have hbR : st.border = R := by omega
    rw [if_pos hc] at h
    rcases hsp : st.startPrev with _ | s
    · rw [hsp] at h; simp at h
    · rw [hsp] at h
      dsimp only at h
      split at h
      · simp at h
      · split at h
        · simp at h
        · rename_i hnot _
          simp only [Option.some_inj, Sum.inl.injEq] at h
          subst h
          have hs := hInv.2.2 s hsp
          push_neg at hnot
          rcases subResult_bound m th st.border s R with hsb | hsb
          · exact absurd hsb hnot.1
          · refine ⟨⟨by dsimp only; omega, by simp, ?_⟩, ?_⟩
            · intro s2 hs2
              simp only at hs2
              obtain rfl : s = s2 := Option.some_inj.mp hs2
              dsimp only
              omega
            · unfold scanMeasure
              dsimp only
              rw [hsp]
              simp only [Option.getD_some]
              have hne := hnot.2
              split <;> omega
  · have hblt : st.border < R := by
      have : R - st.border ≠ 0 := fun h0 => hc (by simp [h0])
      omega
    rw [if_neg hc] at h
    dsimp only at h
    have hstart : st.border + 1 ≤
        (findStartAux m st.border
          (List.range' (st.border + 1) (R - st.border))).getD R ∧
        (findStartAux m st.border
          (List.range' (st.border + 1) (R - st.border))).getD R ≤ R := by
      rcases hf : findStartAux m st.border
          (List.range' (st.border + 1) (R - st.border)) with _ | s0
      · simp only [Option.getD_none]; omega
      · have hm := List.mem_range'_1.mp (findStartAux_mem m st.border _ _ hf)
        simp only [Option.getD_some]
        omega
    set start := (findStartAux m st.border
      (List.range' (st.border + 1) (R - st.border))).getD R
    split at h
    · simp at h
    · split at h
      · simp at h
      · rename_i hnot _
        simp only [Option.some_inj, Sum.inl.injEq] at h
        subst h
        push_neg at hnot
        rcases subResult_bound m th st.border start R with hsb | hsb
        · exact absurd hsb hnot.1
        · have hsv : st.startPrev.getD 0 ≤ st.border := by
            rcases hsp : st.startPrev with _ | s
            · simp
            · simpa using (hInv.2.2 s hsp).2
          refine ⟨⟨by dsimp only; omega, by simp, ?_⟩, ?_⟩
          · intro s2 hs2
            simp only at hs2
            obtain rfl : start = s2 := Option.some_inj.mp hs2
            dsimp only
            omega
          · unfold scanMeasure
            dsimp only
            simp only [Option.getD_some]
            rw [if_neg (by omega : ¬ st.border = R)]
            split <;> omega

/-- The boundary-search loop with `fast` disabled succeeds given fuel
above the measure. -/
theorem scanLoop_terminates_aux (m : Mat) (th : ℚ) (R : ℕ) (hR : 1 ≤ R) :
    ∀ (fuel : ℕ) (st : ScanState), ScanInv R st → scanMeasure R st < fuel →
      ∃ b, scanLoop m th R false fuel st = some b := by
  intro fuel
  induction fuel with
  | zero => intro st _ hm; omega
  | succ n ih =>
    intro st hInv hm
    rcases he : scanStep m th R false st with _ | r
    · exact (scanStep_none m th R false st hInv hR he).elim
    · rcases r with st2 | b
      · obtain ⟨hInv2, hlt⟩ := scanStep_inl_spec m th R st st2 hInv hR he
        obtain ⟨b, hb⟩ := ih st2 hInv2 (by omega)
        refine ⟨b, ?_⟩
        rw [scanLoop, he]
        exact hb
      · refine ⟨b, ?_⟩
        rw [scanLoop, he]

/-- Fuel monotonicity of the loop: a successful run is stable under more
fuel. -/
theorem scanLoop_mono (m : Mat) (th : ℚ) (R : ℕ) (fa : Bool) :
    ∀ (fuel : ℕ) (st : ScanState) (b : ℕ),
      scanLoop m th R fa fuel st = some b →
      scanLoop m th R fa (fuel + 1) st = some b := by
  intro fuel
  induction fuel with
  | zero => intro st b h; simp [scanLoop] at h
  | succ n ih =>
    intro st b h
    rw [scanLoop] at h
    rcases he : scanStep m th R fa st with _ | r
    · rw [he] at h; simp at h
    · rw [he] at h
      rw [scanLoop, he]
      rcases r with st2 | b2
      · exact ih st2 b h
      · exact h

/-- Fuel monotonicity, arbitrary surplus. -/
theorem scanLoop_add (m : Mat) (th : ℚ) (R : ℕ) (fa : Bool) :
    ∀ (k fuel : ℕ) (st : ScanState) (b : ℕ),
      scanLoop m th R fa fuel st = some b →
      scanLoop m th R fa (fuel + k) st = some b := by
  intro k
  induction k with
  | zero => intro fuel st b h; exact h
  | succ n ih =>
    intro fuel st b h
    rw [show fuel + (n + 1) = (fuel + n) + 1 by omega]
    exact scanLoop_mono m th R fa (fuel + n) st b (ih fuel st b h)

/-- A state-carrying iteration whose `start` range is nonempty never
raises. -/
theorem scanStepS_none_lt {m : Mat} {th : ℚ} {R : ℕ} {fast : Bool}
    {st : ScanState} (hlt : st.border < R) :
    scanStepS m th R fast st ≠ none := by
  intro h
  simp only [scanStepS] at h
  have hcand : ¬ List.range' (st.border + 1) (R - st.border) = [] := by
    intro h0
    have := List.range'_eq_nil.mp h0
    omega
  rw [if_neg hcand] at h
  dsimp only at h
  split at h
  · simp at h
  · split at h <;> simp at h

/-- With `R ≥ 1` and the invariant, a state-carrying iteration never
raises. -/
theorem scanStepS_none (m : Mat) (th : ℚ) (R : ℕ) (fast : Bool)
    (st : ScanState) (hInv : ScanInv R st) (hR : 1 ≤ R)
    (h : scanStepS m th R fast st = none) : False := by
  simp only [scanStepS] at h
  by_cases hc : List.range' (st.border + 1) (R - st.border) = []
  · rw [if_pos hc] at h
    rcases hsp : st.startPrev with _ | s
    · have hb0 : st.border = 0 := hInv.2.1 hsp
      have hn : R - st.border = 0 := List.range'_eq_nil.mp hc
      omega
    · rw [hsp] at h
      dsimp only at h
      split at h
      · simp at h
      · split at h <;> simp at h
  · rw [if_neg hc] at h
    dsimp only at h
    split at h
    · simp at h
    · split at h <;> simp at h

/-- A continuing state-carrying iteration preserves the invariant and
strictly decreases the measure (`fast` disabled). -/
theorem scanStepS_inl_spec (m : Mat) (th : ℚ) (R : ℕ) (st st2 : ScanState)
    (hInv : ScanInv R st) (hR : 1 ≤ R)
    (h : scanStepS m th R false st = some (Sum.inl st2)) :
    ScanInv R st2 ∧ scanMeasure R st2 < scanMeasure R st := by
  simp only [scanStepS] at h
  by_cases hc : List.range' (st.border + 1) (R - st.border) = []
  · have hRb : R - st.border = 0 := List.range'_eq_nil.mp hc
    have hble := hInv.1
    have hbR : st.border = R := by omega
    rw [if_pos hc] at h
    rcases hsp : st.startPrev with _ | s
    · rw [hsp] at h; simp at h
    · rw [hsp] at h
      dsimp only at h
      split at h
      · simp at h
      · split at h
        · simp at h
        · rename_i hnot _
          simp only [Option.some_inj, Sum.inl.injEq] at h
          subst h
          have hs := hInv.2.2 s hsp
          push_neg at hnot
          rcases subResult_bound m th st.border s R with hsb | hsb
          · exact absurd hsb hnot.1
          · refine ⟨⟨by dsimp only; omega, by simp, ?_⟩, ?_⟩
            · intro s2 hs2
              simp only at hs2
              obtain rfl : s = s2 := Option.some_inj.mp hs2
              dsimp only
              omega
            · unfold scanMeasure
              dsimp only
              rw [hsp]
              simp only [Option.getD_some]
              have hne := hnot.2
              split <;> omega
  · have hblt : st.border < R := by
      have : R - st.border ≠ 0 := fun h0 => hc (by simp [h0])
      omega
    rw [if_neg hc] at h
    dsimp only at h
    have hstart : st.border + 1 ≤
        (findStartAux m st.border
          (List.range' (st.border + 1) (R - st.border))).getD R ∧
        (findStartAux m st.border
          (List.range' (st.border + 1) (R - st.border))).getD R ≤ R := by
      rcases hf : findStartAux m st.border
          (List.range' (st.border + 1) (R - st.border)) with _ | s0
      · simp only [Option.getD_none]; omega
      · have hm := List.mem_range'_1.mp (findStartAux_mem m st.border _ _ hf)
        simp only [Option.getD_some]
        omega
    set start := (findStartAux m st.border
      (List.range' (st.border + 1) (R - st.border))).getD R
    split at h
    · simp at h
    · split at h
      · simp at h
      · rename_i hnot _
        simp only [Option.some_inj, Sum.inl.injEq] at h
        subst h
        push_neg at hnot
        rcases subResult_bound m th st.border start R with hsb | hsb
        · exact absurd hsb hnot.1
        · have hsv : st.startPrev.getD 0 ≤ st.border := by
            rcases hsp : st.startPrev with _ | s
            · simp
            · simpa using (hInv.2.2 s hsp).2
          refine ⟨⟨by dsimp only; omega, by simp, ?_⟩, ?_⟩
          · intro s2 hs2
            simp only at hs2
            obtain rfl : start = s2 := Option.some_inj.mp hs2
            dsimp only
            omega
          · unfold scanMeasure
            dsimp only
            simp only [Option.getD_some]
            rw [if_neg (by omega : ¬ st.border = R)]
            split <;> omega

/-- The state-carrying loop with `fast` disabled succeeds given fuel above
the measure. -/
theorem scanLoopS_terminates_aux (m : Mat) (th : ℚ) (R : ℕ) (hR : 1 ≤ R) :
    ∀ (fuel : ℕ) (st : ScanState), ScanInv R st → scanMeasure R st < fuel →
      ∃ fin, scanLoopS m th R false fuel st = some fin := by
  intro fuel
  induction fuel with
  | zero => intro st _ hm; omega
  | succ n ih =>
    intro st hInv hm
    rcases he : scanStepS m th R false st with _ | r
    · exact (scanStepS_none m th R false st hInv hR he).elim
    · rcases r with st2 | fin
      · obtain ⟨hInv2, hlt⟩ := scanStepS_inl_spec m th R st st2 hInv hR he
        obtain ⟨fin, hb⟩ := ih st2 hInv2 (by omega)
        refine ⟨fin, ?_⟩
        rw [scanLoopS, he]
        exact hb
      · refine ⟨fin, ?_⟩
        rw [scanLoopS, he]

/-- Fuel monotonicity of the state-carrying loop. -/
theorem scanLoopS_mono (m : Mat) (th : ℚ) (R : ℕ) (fa : Bool) :
    ∀ (fuel : ℕ) (st : ScanState) (fin : ScanState),
      scanLoopS m th R fa fuel st = some fin →
      scanLoopS m th R fa (fuel + 1) st = some fin := by
  intro fuel
  induction fuel with
  | zero => intro st fin h; simp [scanLoopS] at h
  | succ n ih =>
    intro st fin h
    rw [scanLoopS] at h
    rcases he : scanStepS m th R fa st with _ | r
    · rw [he] at h; simp at h
    · rw [he] at h
      rw [scanLoopS, he]
      rcases r with st2 | fin2
      · exact ih st2 fin h
      · exact h

/-- Fuel monotonicity of the state-carrying loop, arbitrary surplus. -/
theorem scanLoopS_add (m : Mat) (th : ℚ) (R : ℕ) (fa : Bool) :
    ∀ (k fuel : ℕ) (st : ScanState) (fin : ScanState),
      scanLoopS m th R fa fuel st = some fin →
      scanLoopS m th R fa (fuel + k) st = some fin := by
  intro k
  induction k with
  | zero => intro fuel st fin h; exact h
  | succ n ih =>
    intro fuel st fin h
    rw [show fuel + (n + 1) = (fuel + n) + 1 by omega]
    exact scanLoopS_mono m th R fa (fuel + n) st fin (ih fuel st fin h)

/-- A continuing first iteration from border `0` restores the invariant
with measure below `2R + 2`, whatever the incoming (possibly stale)
`start` state: a nonempty `start` range reassigns `start`. -/
theorem scanStepS_init (m : Mat) (th : ℚ) (R : ℕ) (sp : Option ℕ)
    (st2 : ScanState) (hR : 1 ≤ R)
    (h : scanStepS m th R false ⟨0, sp⟩ = some (Sum.inl st2)) :
    ScanInv R st2 ∧ scanMeasure R st2 < 2 * R + 2 := by
  simp only [scanStepS] at h
  have hcand : ¬ List.range' (0 + 1) (R - 0) = [] := by
    intro h0
    have := List.range'_eq_nil.mp h0
    omega
  rw [if_neg hcand] at h
  dsimp only at h
  have hstart : 0 + 1 ≤
      (findStartAux m 0 (List.range' (0 + 1) (R - 0))).getD R ∧
      (findStartAux m 0 (List.range' (0 + 1) (R - 0))).getD R ≤ R := by
    rcases hf : findStartAux m 0 (List.range' (0 + 1) (R - 0)) with _ | s0
    · simp only [Option.getD_none]; omega
    · have hm := List.mem_range'_1.mp (findStartAux_mem m 0 _ _ hf)
      simp only [Option.getD_some]
      omega
  set start := (findStartAux m 0 (List.range' (0 + 1) (R - 0))).getD R
  split at h
  · simp at h
  · split at h
    · simp at h
    · rename_i hnot _
      simp only [Option.some_inj, Sum.inl.injEq] at h
      subst h
      push_neg at hnot
      rcases subResult_bound m th 0 start R with hsb | hsb
      · exact absurd hsb hnot.1
      · refine ⟨⟨by dsimp only; omega, by simp, ?_⟩, ?_⟩
        · intro s2 hs2
          simp only at hs2
          obtain rfl : start = s2 := Option.some_inj.mp hs2
          dsimp only
          omega
        · unfold scanMeasure
          dsimp only
          simp only [Option.getD_some]
          split <;> omega

/-- With `R ≥ 1` the state-carrying boundary search terminates from any
incoming `start` state. -/
theorem scanLoopS_terminates_start (m : Mat) (th : ℚ) (R : ℕ)
    (sp : Option ℕ) (hR : 1 ≤ R) :
    ∃ fin, ∀ fuel, 2 * R + 3 ≤ fuel →
      scanLoopS m th R false fuel ⟨0, sp⟩ = some fin := by
  rcases he : scanStepS m th R false ⟨0, sp⟩ with _ | r
  · exact absurd he (scanStepS_none_lt (by simp; omega))
  · rcases r with st2 | fin
    · obtain ⟨hInv2, hμ⟩ := scanStepS_init m th R sp st2 hR he
      obtain ⟨fin, hfin⟩ := scanLoopS_terminates_aux m th R hR (2 * R + 2)
        st2 hInv2 hμ
      refine ⟨fin, fun fuel hf => ?_⟩
      obtain ⟨k, rfl⟩ : ∃ k, fuel = k + 1 := ⟨fuel - 1, by omega⟩
      rw [scanLoopS, he]
      have h2 := scanLoopS_add m th R false (k - (2 * R + 2)) (2 * R + 2)
        st2 fin hfin
      rwa [Nat.add_sub_cancel' (by omega)] at h2
    · refine ⟨fin, fun fuel hf => ?_⟩
      obtain ⟨k, rfl⟩ : ∃ k, fuel = k + 1 := ⟨fuel - 1, by omega⟩
      rw [scanLoopS, he]

/-- Claim C2: for every frame, side, and configuration with
`round(indent · h) ≥ 1` (`h` the rotated view's height), a border offset
returned by the side scanner satisfies `0 ≤ offset ≤ round(indent · h)`. -/
theorem border_within_indent_bound (frame : Mat) (side : ℕ)
    (th ind stripes : ℚ) (maxS : Option ℕ) (fast : Bool)
    (sf : List ℕ → List ℕ) (b : ℕ) (hside : side < 4)
    (hR : 1 ≤ pyRound (ind * ((rotk frame side).h : ℚ)))
    (hb : sideBorder frame side th ind stripes maxS fast sf = some b) :
    (0 : ℤ) ≤ (b : ℤ) ∧ (b : ℤ) ≤ pyRound (ind * ((rotk frame side).h : ℚ)) := by
  refine ⟨Int.natCast_nonneg b, ?_⟩
  have hb' : scanLoop (sampledView frame side stripes maxS sf) th
      ((pyRound (ind * ((rotk frame side).h : ℚ))).toNat) fast
      (2 * (pyRound (ind * ((rotk frame side).h : ℚ))).toNat + 3)
      ⟨0, none⟩ = some b := hb
  have hble : b ≤ (pyRound (ind * ((rotk frame side).h : ℚ))).toNat :=
    scanLoop_le _ th _ fast _ _ b (Nat.zero_le _) hb'
  calc (b : ℤ) ≤ ((pyRound (ind * ((rotk frame side).h : ℚ))).toNat : ℤ) := by
        exact_mod_cast hble
    _ = pyRound (ind * ((rotk frame side).h : ℚ)) :=
        Int.toNat_of_nonneg (by omega)

/-- When the column selection is nonempty, `np.hstack` succeeds and the
per-side pipeline is the boundary search on the stacked view. -/
theorem sideBorderFull_eq (m : Mat) (side : ℕ) (th ind stripes : ℚ)
    (maxS : Option ℕ) (fast : Bool) (sf : List ℕ → List ℕ) (sp : Option ℕ)
    (hcols : colSelection (rotk m side).w
      (if 0 < stripes ∧ stripes < 1 then (pyRound (1 / stripes)).toNat
        else 1) maxS sf ≠ []) :
    sideBorderFull m side th ind stripes maxS fast sf sp =
      scanSideS (colSample (rotk m side)
        (colSelection (rotk m side).w
          (if 0 < stripes ∧ stripes < 1 then (pyRound (1 / stripes)).toNat
            else 1) maxS sf)) th ind fast sp := by
  show (match hstackCols (rotk m side)
      (colSelection (rotk m side).w
        (if 0 < stripes ∧ stripes < 1 then (pyRound (1 / stripes)).toNat
          else 1) maxS sf) with
    | none => none
    | some V => scanSideS V th ind fast sp) = _
  rw [show hstackCols (rotk m side)
      (colSelection (rotk m side).w
        (if 0 < stripes ∧ stripes < 1 then (pyRound (1 / stripes)).toNat
          else 1) maxS sf) =
      some (colSample (rotk m side)
        (colSelection (rotk m side).w
          (if 0 < stripes ∧ stripes < 1 then (pyRound (1 / stripes)).toNat
            else 1) maxS sf)) from by
    unfold hstackCols
    rw [if_neg hcols]]

/-- Claim C7 (amended): with `fast` disabled, whenever the side's column
selection is nonempty (so `np.hstack` succeeds and the search is reached)
and `round(indent · h) ≥ 1`, the iterative boundary search terminates
within `2 · round(indent · h) + 3` iterations, whatever `start` state the
previous sides left behind; each iteration with border below
`round(indent · h)` either stops or strictly increases the border, while
an iteration at border `= round(indent · h)` either stops or moves the
border back to at least the remembered `start` value, after which the
`start` value has strictly increased — the measure `scanMeasure` decreases
every iteration. -/
theorem scan_search_terminates (frame : Mat) (side : ℕ)
    (th ind stripes : ℚ) (maxS : Option ℕ) (sf : List ℕ → List ℕ)
    (sp : Option ℕ)
    (hcols : colSelection (rotk frame side).w
      (if 0 < stripes ∧ stripes < 1 then (pyRound (1 / stripes)).toNat
        else 1) maxS sf ≠ [])
    (hR : 1 ≤ (pyRound (ind * ((rotk frame side).h : ℚ))).toNat) :
    ∃ fin : ScanState,
      sideBorderFull frame side th ind stripes maxS false sf sp = some fin ∧
      ∀ fuel,
        2 * (pyRound (ind * ((rotk frame side).h : ℚ))).toNat + 3 ≤ fuel →
        scanLoopS (colSample (rotk frame side)
            (colSelection (rotk frame side).w
              (if 0 < stripes ∧ stripes < 1 then (pyRound (1 / stripes)).toNat
                else 1) maxS sf)) th
          ((pyRound (ind * ((rotk frame side).h : ℚ))).toNat) false fuel
          ⟨0, sp⟩ = some fin := by
  obtain ⟨fin, hfin⟩ := scanLoopS_terminates_start
    (colSample (rotk frame side)
      (colSelection (rotk frame side).w
        (if 0 < stripes ∧ stripes < 1 then (pyRound (1 / stripes)).toNat
          else 1) maxS sf)) th
    ((pyRound (ind * ((rotk frame side).h : ℚ))).toNat) sp hR
  refine ⟨fin, ?_, hfin⟩
  rw [sideBorderFull_eq frame side th ind stripes maxS false sf sp hcols]
  exact hfin _ le_rfl

/-! ## Uniform frames -/

/-- Every element of a row concatenation is a pixel of a listed row. -/
theorem rowConcat_mem (m : Mat) (l : List ℕ) (x : ℕ) (hx : x ∈ rowConcat m l) :
    ∃ i ∈ l, ∃ j < m.w, x = m.px i j := by
  induction l with
  | nil => simp [rowConcat] at hx
  | cons i t ih =>
    rw [rowConcat] at hx
    rcases List.mem_append.mp hx with h | h
    · obtain ⟨j, hj, rfl⟩ := List.mem_map.mp h
      exact ⟨i, List.mem_cons_self i t, j, List.mem_range.mp hj, rfl⟩
    · obtain ⟨i2, hi2, j, hj, hx2⟩ := ih h
      exact ⟨i2, List.mem_cons_of_mem i hi2, j, hj, hx2⟩

/-- On a uniform frame every sliced signal is constant. -/
theorem rowsSig_const {m : Mat} {c : ℕ} (hu : m.UniformVal c) (a : ℕ)
    (b : ℤ) : ∀ x ∈ rowsSig m a b, x = c := by
  intro x hx
  simp only [rowsSig] at hx
  obtain ⟨i, hi, j, hj, rfl⟩ := rowConcat_mem m _ _ hx
  have hi2 := List.mem_range'_1.mp hi
  have hstop : (if b < 0 then ((m.h : ℤ) + b).toNat
      else min b.toNat m.h) ≤ m.h := by
    split <;> omega
  exact hu i j (by omega) hj

/-- A quarter turn of a uniform frame is uniform. -/
theorem uniform_rot90 {m : Mat} {c : ℕ} (hu : m.UniformVal c) :
    (rot90 m).UniformVal c := by
  intro i j hi hj
  simp only [rot90] at hi hj ⊢
  exact hu j (m.w - 1 - i) hj (by omega)

/-- Any number of quarter turns of a uniform frame is uniform. -/
theorem uniform_rotk {m : Mat} {c : ℕ} (hu : m.UniformVal c) (side : ℕ) :
    (rotk m side).UniformVal c := by
  unfold rotk
  induction side with
  | zero => simpa using hu
  | succ n ih =>
    rw [Function.iterate_succ_apply']
    exact uniform_rot90 ih

/-- Sampling in-range columns of a uniform frame is uniform. -/
theorem uniform_colSample {m : Mat} {c : ℕ} (hu : m.UniformVal c)
    (cols : List ℕ) (hcols : ∀ j ∈ cols, j < m.w) :
    (colSample m cols).UniformVal c := by
  intro i j hi hj
  simp only [colSample] at hi hj ⊢
  apply hu i _ hi
  apply hcols
  rw [List.getD_eq_getElem cols 0 hj]
  exact List.getElem_mem hj

/-- With no stripe cap, the selected columns all lie in range. -/
theorem colSelection_lt (w paginate : ℕ) (sf : List ℕ → List ℕ) :
    ∀ j ∈ colSelection w paginate none sf, j < w := by
  intro j hj
  simp only [colSelection] at hj
  exact List.mem_range.mp (List.mem_filter.mp hj).1

/-- The sampled view of a uniform frame (no stripe cap) is uniform. -/
theorem uniform_sampledView {m : Mat} {c : ℕ} (hu : m.UniformVal c)
    (side : ℕ) (stripes : ℚ) (sf : List ℕ → List ℕ) :
    (sampledView m side stripes none sf).UniformVal c := by
  apply uniform_colSample (uniform_rotk hu side)
  intro j hj
  exact colSelection_lt _ _ sf j hj

/-- On a uniform view the first loop iteration already stops with border
`0`: no `start` candidate has positive entropy and no `center` wins. -/
theorem uniform_scanStep {m : Mat} {c : ℕ} (hu : m.UniformVal c)
    (th : ℚ) (R : ℕ) (fast : Bool) (hR : 1 ≤ R) :
    scanStep m th R fast ⟨0, none⟩ = some (Sum.inr 0) := by
  have hcand : ¬ List.range' (0 + 1) (R - 0) = [] := by
    intro h
    have := List.range'_eq_nil.mp h
    omega
  have h1 : findStartAux m 0 (List.range' (0 + 1) (R - 0)) = none :=
    findStartAux_none _ _ _ fun s _ =>
      entropy_const fun x hx => rowsSig_const hu 0 s x hx
  simp only [scanStep]
  rw [if_neg hcand, h1]
  simp only [Option.getD_none]
  rw [findSubAux_zero_lower m 0 th ((List.range' R (R + 1 - R)).reverse)
    (fun c2 _ => entropy_const fun x hx => rowsSig_const hu c2 _ x hx)
    (0, (th : ℝ))]
  rw [if_pos (Or.inl rfl)]

/-- A first iteration that stops with border `0` makes the whole search
return `0`. -/
theorem scanSide_of_first_stop {m : Mat} {th ind : ℚ} {fast : Bool}
    (h : scanStep m th ((pyRound (ind * (m.h : ℚ))).toNat) fast
      ⟨0, none⟩ = some (Sum.inr 0)) :
    scanSide m th ind fast = some 0 := by
  show scanLoop m th ((pyRound (ind * (m.h : ℚ))).toNat) fast
    (2 * (pyRound (ind * (m.h : ℚ))).toNat + 2 + 1) ⟨0, none⟩ = some 0
  rw [scanLoop, h]

/-- The boundary search on a uniform view returns border `0` whenever its
`start` range is nonempty. -/
theorem uniform_scanSide {m : Mat} {c : ℕ} (hu : m.UniformVal c)
    (th ind : ℚ) (fast : Bool)
    (hR : 1 ≤ (pyRound (ind * (m.h : ℚ))).toNat) :
    scanSide m th ind fast = some 0 :=
  scanSide_of_first_stop (uniform_scanStep hu th _ fast hR)

/-- A uniform frame yields border `0` on a side whose indent range is
nonempty (no stripe cap). -/
theorem uniform_sideBorder {frame : Mat} {c : ℕ} (hu : frame.UniformVal c)
    (side : ℕ) (th ind stripes : ℚ) (fast : Bool) (sf : List ℕ → List ℕ)
    (hR : 1 ≤ (pyRound (ind * ((rotk frame side).h : ℚ))).toNat) :
    sideBorder frame side th ind stripes none fast sf = some 0 :=
  uniform_scanSide (uniform_sampledView hu side stripes sf) th ind fast hR

/-- Any number of quarter turns of a square frame keeps its height. -/
theorem rotk_h_square (n c k : ℕ) : (rotk (constMat n n c) k).h = n := by
  have key : ∀ j, (rotk (constMat n n c) j).h = n ∧
      (rotk (constMat n n c) j).w = n := by
    intro j
    unfold rotk
    induction j with
    | zero => exact ⟨rfl, rfl⟩
    | succ i ih =>
      rw [Function.iterate_succ_apply']
      exact ⟨ih.2, ih.1⟩
  exact (key k).1

/-- With `round(indent · h) = 0` the boundary search raises on its first
iteration: the `start` range is empty and `start` was never assigned. -/
theorem scanSide_R_zero (V : Mat) (th ind : ℚ) (fast : Bool)
    (hV : (pyRound (ind * (V.h : ℚ))).toNat = 0) :
    scanSide V th ind fast = none := by
  show scanLoop V th ((pyRound (ind * (V.h : ℚ))).toNat) fast
    (2 * (pyRound (ind * (V.h : ℚ))).toNat + 2 + 1) ⟨0, none⟩ = none
  rw [hV]
  have hstep : scanStep V th 0 fast ⟨0, none⟩ = none := by
    simp only [scanStep]
    rw [if_pos (show List.range' (0 + 1) (0 - 0) = [] from rfl)]
  rw [scanLoop, hstep]

/-- Witness for C2: on a uniform 4×4 frame with indent 1/2, side 0 returns
offset 0, which lies within `[0, round(indent · 4)] = [0, 2]`. -/
theorem border_within_indent_bound_witness :
    (0 : ℤ) ≤ ((0 : ℕ) : ℤ) ∧
      ((0 : ℕ) : ℤ) ≤ pyRound ((1 / 2 : ℚ) * ((rotk (constMat 4 4 7) 0).h : ℚ)) :=
  border_within_indent_bound (constMat 4 4 7) 0 (1 / 2) (1 / 2) 1 none true
    id 0 (by decide) (by rw [rotk_h_square]; norm_num [pyRound])
    (uniform_sideBorder (fun _ _ _ _ => rfl) 0 (1 / 2) (1 / 2) 1 true id
      (by rw [rotk_h_square]; norm_num [pyRound]))

/-- Witness for C7 on a concrete 4×4 frame with indent 1/2 (first side,
`start` not yet assigned). -/
theorem scan_search_terminates_witness :
    ∃ fin : ScanState,
      sideBorderFull (constMat 4 4 9) 0 (1 / 2) (1 / 2) 1 none false id
          none = some fin ∧
      ∀ fuel,
        2 * (pyRound ((1 / 2 : ℚ) *
          ((rotk (constMat 4 4 9) 0).h : ℚ))).toNat + 3 ≤ fuel →
        scanLoopS (colSample (rotk (constMat 4 4 9) 0)
            (colSelection (rotk (constMat 4 4 9) 0).w
              (if 0 < (1 : ℚ) ∧ (1 : ℚ) < 1 then
                (pyRound (1 / (1 : ℚ))).toNat else 1) none id)) (1 / 2)
          ((pyRound ((1 / 2 : ℚ) * ((rotk (constMat 4 4 9) 0).h : ℚ))).toNat)
          false fuel ⟨0, none⟩ = some fin :=
  scan_search_terminates (constMat 4 4 9) 0 (1 / 2) (1 / 2) 1 none id none
    (by
      rw [show colSelection (rotk (constMat 4 4 9) 0).w
          (if 0 < (1 : ℚ) ∧ (1 : ℚ) < 1 then
            (pyRound (1 / (1 : ℚ))).toNat else 1) none id = [0, 1, 2, 3]
        from rfl]
      simp)
    (by rw [rotk_h_square]; norm_num [pyRound])

/-- Claim C3 (code bug at the degenerate size): on a fully uniform 1×1
frame with the default threshold `0.5` and indent `0.25`,
`round(indent · h) = 0`, the `start` loop never runs on the first
iteration, and the `center` loop reads the never-assigned loop variable
`start` — the scan raises `UnboundLocalError` (modelled `none`) instead of
returning offset `0`. -/
theorem uniform_frame_degenerate_error :
    sideBorder (constMat 1 1 5) 0 (1 / 2) (1 / 4) 1 none true id = none := by
  show scanSide (sampledView (constMat 1 1 5) 0 1 none id) (1 / 2) (1 / 4)
    true = none
  apply scanSide_R_zero
  rw [show (sampledView (constMat 1 1 5) 0 1 none id).h = 1 from rfl]
  norm_num [pyRound]

/-- With an empty indent range and `start` never assigned, the
state-carrying search raises (`UnboundLocalError`, modelled `none`). -/
theorem scanSideS_R0_none (m : Mat) (th ind : ℚ) (fast : Bool)
    (hV : (pyRound (ind * (m.h : ℚ))).toNat = 0) :
    scanSideS m th ind fast none = none := by
  show scanLoopS m th ((pyRound (ind * (m.h : ℚ))).toNat) fast
    (2 * (pyRound (ind * (m.h : ℚ))).toNat + 2 + 1) ⟨0, none⟩ = none
  rw [hV]
  have hstep : scanStepS m th 0 fast ⟨0, none⟩ = none := by
    simp only [scanStepS]
    rw [if_pos (show List.range' (0 + 1) (0 - 0) = [] from rfl)]
  rw [scanLoopS, hstep]

/-- With an empty indent range but a stale `start ≥ 1` left by an earlier
side, the `center` range `reversed(range(start, round(indent·h)+1))` is
empty as well, so the side stops at once with border `0` and no error. -/
theorem scanSideS_R0_stale (m : Mat) (th ind : ℚ) (fast : Bool) (s : ℕ)
    (hV : (pyRound (ind * (m.h : ℚ))).toNat = 0) (hs : 1 ≤ s) :
    scanSideS m th ind fast (some s) = some ⟨0, some s⟩ := by
  show scanLoopS m th ((pyRound (ind * (m.h : ℚ))).toNat) fast
    (2 * (pyRound (ind * (m.h : ℚ))).toNat + 2 + 1) ⟨0, some s⟩ =
    some ⟨0, some s⟩
  rw [hV]
  have hstep : scanStepS m th 0 fast ⟨0, some s⟩ =
      some (Sum.inr ⟨0, some s⟩) := by
    simp only [scanStepS]
    rw [if_pos (show List.range' (0 + 1) (0 - 0) = [] from rfl)]
    dsimp only
    rw [show List.range' s (0 + 1 - s) = [] from
      List.range'_eq_nil.mpr (by omega)]
    rw [List.reverse_nil]
    rw [if_pos (Or.inl (show
      (findSubAux m 0 th ([] : List ℕ) (0, (th : ℝ))).1 = 0 from rfl))]
  rw [scanLoopS, hstep]

/-- Claim C5 (code bug on a side entered with `start` unassigned): when
`round(indent · h) < 1`, a side whose function-scoped loop variable
`start` was never assigned — in particular the first scanned side — does
not degenerate to offset 0: its `start` range is empty, the `center` loop
reads the unset variable, and the call raises (`UnboundLocalError`,
modelled `none`). A side entered with a stale `start ≥ 1` left behind by
an earlier side has an empty `center` range too and does return offset 0
without error, exactly as the claim states. -/
theorem scan_unset_start_error :
    (∀ (m : Mat) (th ind : ℚ) (fast : Bool),
      pyRound (ind * (m.h : ℚ)) < 1 →
      scanSideS m th ind fast none = none) ∧
    (∀ (m : Mat) (th ind : ℚ) (fast : Bool) (s : ℕ),
      pyRound (ind * (m.h : ℚ)) < 1 → 1 ≤ s →
      scanSideS m th ind fast (some s) = some ⟨0, some s⟩) := by
  constructor
  · intro m th ind fast hR
    exact scanSideS_R0_none m th ind fast (by omega)
  · intro m th ind fast s hR hs
    exact scanSideS_R0_stale m th ind fast s (by omega) hs

/-- Witness for C5 on a 2×2 view with indent 1/5 (`round(indent · 2) = 0`):
a first side raises, a later side with stale `start = 2` returns 0. -/
theorem scan_unset_start_error_witness :
    scanSideS (constMat 2 2 3) (1 / 2) (1 / 5) true none = none ∧
      scanSideS (constMat 2 2 3) (1 / 2) (1 / 5) true (some 2) =
        some ⟨0, some 2⟩ :=
  ⟨scan_unset_start_error.1 (constMat 2 2 3) (1 / 2) (1 / 5) true
      (by rw [show (constMat 2 2 3).h = 2 from rfl]; norm_num [pyRound]),
    scan_unset_start_error.2 (constMat 2 2 3) (1 / 2) (1 / 5) true 2
      (by rw [show (constMat 2 2 3).h = 2 from rfl]; norm_num [pyRound])
      (by norm_num)⟩

/-- On a uniform view the first state-carrying iteration stops with border
`0` and leaves `start = R`, whatever `start` state it was entered with: a
nonempty `start` range reassigns `start`, no candidate has positive
entropy, so `start` ends at the range's last value `R`. -/
theorem uniform_scanStepS {m : Mat} {c : ℕ} (hu : m.UniformVal c)
    (th : ℚ) (R : ℕ) (fast : Bool) (sp : Option ℕ) (hR : 1 ≤ R) :
    scanStepS m th R fast ⟨0, sp⟩ = some (Sum.inr ⟨0, some R⟩) := by
  have hcand : ¬ List.range' (0 + 1) (R - 0) = [] := by
    intro h
    have := List.range'_eq_nil.mp h
    omega
  have h1 : findStartAux m 0 (List.range' (0 + 1) (R - 0)) = none :=
    findStartAux_none _ _ _ fun s _ =>
      entropy_const fun x hx => rowsSig_const hu 0 s x hx
  simp only [scanStepS]
  rw [if_neg hcand, h1]
  simp only [Option.getD_none]
  rw [findSubAux_zero_lower m 0 th ((List.range' R (R + 1 - R)).reverse)
    (fun c2 _ => entropy_const fun x hx => rowsSig_const hu c2 _ x hx)
    (0, (th : ℝ))]
  rw [if_pos (Or.inl rfl)]

/-- The state-carrying search on a uniform view stops with border `0` and
final `start = R`, from any incoming `start` state. -/
theorem uniform_scanSideS {m : Mat} {c : ℕ} (hu : m.UniformVal c)
    (th ind : ℚ) (fast : Bool) (sp : Option ℕ)
    (hR : 1 ≤ (pyRound (ind * (m.h : ℚ))).toNat) :
    scanSideS m th ind fast sp =
      some ⟨0, some ((pyRound (ind * (m.h : ℚ))).toNat)⟩ := by
  show scanLoopS m th ((pyRound (ind * (m.h : ℚ))).toNat) fast
    (2 * (pyRound (ind * (m.h : ℚ))).toNat + 2 + 1) ⟨0, sp⟩ = _
  rw [scanLoopS, uniform_scanStepS hu th _ fast sp hR]

/-- The function-scoped `start` in action on a uniform 8×2 frame with
indent 1/5: sides 0 and 2 (height 8, `round(indent·8) = 2`) scan and leave
`start = 2`; sides 1 and 3 (height 2, `round(indent·2) = 0`) have an empty
`start` range but reuse the stale `start = 2`, so their `center` range is
empty too and they append border 0 with no error — `__scan_frame` returns
`(0, 0, 0, 0)`. -/
theorem scanFrameFull_stale_start :
    scanFrameFull (constMat 8 2 5) (1 / 2) (1 / 5) 1 none true id =
      some [0, 0, 0, 0] := by
  have hu : (constMat 8 2 5).UniformVal 5 := fun _ _ _ _ => rfl
  have hc0 : colSelection (rotk (constMat 8 2 5) 0).w
      (if 0 < (1 : ℚ) ∧ (1 : ℚ) < 1 then (pyRound (1 / (1 : ℚ))).toNat
        else 1) none id ≠ [] := by
    rw [show colSelection (rotk (constMat 8 2 5) 0).w
        (if 0 < (1 : ℚ) ∧ (1 : ℚ) < 1 then (pyRound (1 / (1 : ℚ))).toNat
          else 1) none id = [0, 1] from rfl]
    simp
  have hc1 : colSelection (rotk (constMat 8 2 5) 1).w
      (if 0 < (1 : ℚ) ∧ (1 : ℚ) < 1 then (pyRound (1 / (1 : ℚ))).toNat
        else 1) none id ≠ [] := by
    rw [show colSelection (rotk (constMat 8 2 5) 1).w
        (if 0 < (1 : ℚ) ∧ (1 : ℚ) < 1 then (pyRound (1 / (1 : ℚ))).toNat
          else 1) none id = [0, 1, 2, 3, 4, 5, 6, 7] from rfl]
    simp
  have hc2 : colSelection (rotk (constMat 8 2 5) 2).w
      (if 0 < (1 : ℚ) ∧ (1 : ℚ) < 1 then (pyRound (1 / (1 : ℚ))).toNat
        else 1) none id ≠ [] := by
    rw [show colSelection (rotk (constMat 8 2 5) 2).w
        (if 0 < (1 : ℚ) ∧ (1 : ℚ) < 1 then (pyRound (1 / (1 : ℚ))).toNat
          else 1) none id = [0, 1] from rfl]
    simp
  have hc3 : colSelection (rotk (constMat 8 2 5) 3).w
      (if 0 < (1 : ℚ) ∧ (1 : ℚ) < 1 then (pyRound (1 / (1 : ℚ))).toNat
        else 1) none id ≠ [] := by
    rw [show colSelection (rotk (constMat 8 2 5) 3).w
        (if 0 < (1 : ℚ) ∧ (1 : ℚ) < 1 then (pyRound (1 / (1 : ℚ))).toNat
          else 1) none id = [0, 1, 2, 3, 4, 5, 6, 7] from rfl]
    simp
  have hR0eq : (pyRound ((1 / 5 : ℚ) * (((colSample (rotk (constMat 8 2 5) 0)
      (colSelection (rotk (constMat 8 2 5) 0).w
        (if 0 < (1 : ℚ) ∧ (1 : ℚ) < 1 then (pyRound (1 / (1 : ℚ))).toNat
          else 1) none id)).h : ℕ) : ℚ))).toNat = 2 := by
    rw [show (colSample (rotk (constMat 8 2 5) 0)
        (colSelection (rotk (constMat 8 2 5) 0).w
          (if 0 < (1 : ℚ) ∧ (1 : ℚ) < 1 then (pyRound (1 / (1 : ℚ))).toNat
            else 1) none id)).h = 8 from rfl]
    norm_num [pyRound]
    rfl
  have hR2eq : (pyRound ((1 / 5 : ℚ) * (((colSample (rotk (constMat 8 2 5) 2)
      (colSelection (rotk (constMat 8 2 5) 2).w
        (if 0 < (1 : ℚ) ∧ (1 : ℚ) < 1 then (pyRound (1 / (1 : ℚ))).toNat
          else 1) none id)).h : ℕ) : ℚ))).toNat = 2 := by
    rw [show (colSample (rotk (constMat 8 2 5) 2)
        (colSelection (rotk (constMat 8 2 5) 2).w
          (if 0 < (1 : ℚ) ∧ (1 : ℚ) < 1 then (pyRound (1 / (1 : ℚ))).toNat
            else 1) none id)).h = 8 from rfl]
    norm_num [pyRound]
    rfl
  have hside0 : sideBorderFull (constMat 8 2 5) 0 (1 / 2) (1 / 5) 1 none
      true id none = some ⟨0, some 2⟩ := by
    rw [sideBorderFull_eq (constMat 8 2 5) 0 (1 / 2) (1 / 5) 1 none true id
      none hc0]
    rw [uniform_scanSideS
      (uniform_colSample (uniform_rotk hu 0) _ (colSelection_lt _ _ id))
      (1 / 2) (1 / 5) true none (by rw [hR0eq]; norm_num)]
    rw [hR0eq]
  have hside1 : sideBorderFull (constMat 8 2 5) 1 (1 / 2) (1 / 5) 1 none
      true id (some 2) = some ⟨0, some 2⟩ := by
    rw [sideBorderFull_eq (constMat 8 2 5) 1 (1 / 2) (1 / 5) 1 none true id
      (some 2) hc1]
    exact scanSideS_R0_stale _ (1 / 2) (1 / 5) true 2
      (by
        rw [show (colSample (rotk (constMat 8 2 5) 1)
            (colSelection (rotk (constMat 8 2 5) 1).w
              (if 0 < (1 : ℚ) ∧ (1 : ℚ) < 1 then
                (pyRound (1 / (1 : ℚ))).toNat else 1) none id)).h = 2
          from rfl]
        norm_num [pyRound])
      (by norm_num)
  have hside2 : sideBorderFull (constMat 8 2 5) 2 (1 / 2) (1 / 5) 1 none
      true id (some 2) = some ⟨0, some 2⟩ := by
    rw [sideBorderFull_eq (constMat 8 2 5) 2 (1 / 2) (1 / 5) 1 none true id
      (some 2) hc2]
    rw [uniform_scanSideS
      (uniform_colSample (uniform_rotk hu 2) _ (colSelection_lt _ _ id))
      (1 / 2) (1 / 5) true (some 2) (by rw [hR2eq]; norm_num)]
    rw [hR2eq]
  have hside3 : sideBorderFull (constMat 8 2 5) 3 (1 / 2) (1 / 5) 1 none
      true id (some 2) = some ⟨0, some 2⟩ := by
    rw [sideBorderFull_eq (constMat 8 2 5) 3 (1 / 2) (1 / 5) 1 none true id
      (some 2) hc3]
    exact scanSideS_R0_stale _ (1 / 2) (1 / 5) true 2
      (by
        rw [show (colSample (rotk (constMat 8 2 5) 3)
            (colSelection (rotk (constMat 8 2 5) 3).w
              (if 0 < (1 : ℚ) ∧ (1 : ℚ) < 1 then
                (pyRound (1 / (1 : ℚ))).toNat else 1) none id)).h = 2
          from rfl]
        norm_num [pyRound])
      (by norm_num)
  unfold scanFrameFull
  rw [show List.range 4 = [0, 1, 2, 3] from rfl]
  rw [scanSidesGo, hside0]
  dsimp only
  rw [scanSidesGo, hside1]
  dsimp only
  rw [scanSidesGo, hside2]
  dsimp only
  rw [scanSidesGo, hside3]
  dsimp only
  rw [scanSidesGo]

/-- Claim C8 (amended): `scan` performs no validation of its
configuration and no `InvalidConfiguration` error exists in the module. A
call with `threshold ≤ 0` is not rejected before scanning: whenever the
side's column selection is nonempty (so `np.hstack` succeeds) and
`round(indent · h) ≥ 1`, the side scan completes normally with border `0`,
because every entropy ratio is nonnegative and can never be strictly below
the nonpositive threshold; and the one invalid setting that does fail,
`max_stripes = 0`, fails mid-scan with the `np.hstack` `ValueError`
(modelled `none`), not with a configuration check. -/
theorem invalid_threshold_scans (frame : Mat) (side : ℕ)
    (th ind stripes : ℚ) (maxS : Option ℕ) (fast : Bool)
    (sf : List ℕ → List ℕ) (sp : Option ℕ) (hth : th ≤ 0) :
    (colSelection (rotk frame side).w
        (if 0 < stripes ∧ stripes < 1 then (pyRound (1 / stripes)).toNat
          else 1) maxS sf ≠ [] →
      1 ≤ (pyRound (ind * ((rotk frame side).h : ℚ))).toNat →
      ∃ fin : ScanState,
        sideBorderFull frame side th ind stripes maxS fast sf sp =
          some fin ∧ fin.border = 0) ∧
    sideBorderFull frame side th ind stripes (some 0) fast sf sp = none := by
  constructor
  · intro hcols hR
    rw [sideBorderFull_eq frame side th ind stripes maxS fast sf sp hcols]
    set V := colSample (rotk frame side)
      (colSelection (rotk frame side).w
        (if 0 < stripes ∧ stripes < 1 then (pyRound (1 / stripes)).toNat
          else 1) maxS sf) with hVdef
    set R := (pyRound (ind * (V.h : ℚ))).toNat with hRdef
    have hR' : 1 ≤ R := hR
    have hcand : ¬ List.range' (0 + 1) (R - 0) = [] := by
      intro h0
      have := List.range'_eq_nil.mp h0
      omega
    have hstep : scanStepS V th R fast ⟨0, sp⟩ =
        some (Sum.inr ⟨0, some ((findStartAux V 0
          (List.range' (0 + 1) (R - 0))).getD R)⟩) := by
      simp only [scanStepS]
      rw [if_neg hcand]
      dsimp only
      rw [findSubAux_nonpos _ 0 th hth _ 0]
      rw [if_pos (Or.inl rfl)]
    refine ⟨⟨0, some ((findStartAux V 0
      (List.range' (0 + 1) (R - 0))).getD R)⟩, ?_, rfl⟩
    show scanLoopS V th R fast (2 * R + 2 + 1) ⟨0, sp⟩ = _
    rw [scanLoopS, hstep]
  · rfl

/-- Witness for C8's amended claim on the non-uniform 6×2 frame with
threshold `0`: the scan completes with border 0, while `max_stripes = 0`
fails mid-scan at `np.hstack`. -/
theorem invalid_threshold_scans_witness :
    (∃ fin : ScanState,
      sideBorderFull exFrame 0 0 (1 / 2) 1 none true id none = some fin ∧
        fin.border = 0) ∧
    sideBorderFull exFrame 0 0 (1 / 2) 1 (some 0) true id none = none :=
  ⟨(invalid_threshold_scans exFrame 0 0 (1 / 2) 1 none true id none
      le_rfl).1
    (by
      rw [show colSelection (rotk exFrame 0).w
          (if 0 < (1 : ℚ) ∧ (1 : ℚ) < 1 then
            (pyRound (1 / (1 : ℚ))).toNat else 1) none id = [0, 1] from rfl]
      simp)
    (by rw [show (rotk exFrame 0).h = 6 from rfl]; norm_num [pyRound]),
    (invalid_threshold_scans exFrame 0 0 (1 / 2) 1 none true id none
      le_rfl).2⟩

/-- Claim C8 counterexample: a call with `threshold = -1` — an invalid
configuration the specification says must be rejected before scanning — is
not rejected: `scan` runs the border computation on the frame and returns
a normal BorderSet. -/
theorem invalid_config_not_rejected :
    scan [constMat 4 4 7] (-1) (1 / 2) 1 none true id = some [[0, 0, 0, 0]] := by
  have hs : ∀ side : ℕ,
      1 ≤ (pyRound ((1 / 2 : ℚ) *
        ((rotk (constMat 4 4 7) side).h : ℚ))).toNat →
      sideBorder (constMat 4 4 7) side (-1) (1 / 2) 1 none true id = some 0 :=
    fun side hRs =>
      uniform_sideBorder (fun _ _ _ _ => rfl) side (-1) (1 / 2) 1 true id hRs
  have h0 := hs 0 (by rw [rotk_h_square]; norm_num [pyRound])
  have h1 := hs 1 (by rw [rotk_h_square]; norm_num [pyRound])
  have h2 := hs 2 (by rw [rotk_h_square]; norm_num [pyRound])
  have h3 := hs 3 (by rw [rotk_h_square]; norm_num [pyRound])
  have hrange : List.range 4 = [0, 1, 2, 3] := rfl
  unfold scan scanFrame
  rw [hrange]
  simp only [List.map_cons, List.map_nil]
  rw [h0, h1, h2, h3]
  rfl

/-- Claim C9: with `stripes = 1.0` and a fixed seed — the shuffle oracle
equal across the two runs — repeated scans of the same frame and
configuration produce identical BorderSets; moreover with `max_stripes`
unset the selected columns are the full range, so the result does not
depend on the shuffle oracle at all. -/
theorem scan_deterministic_fixed_seed (m : Mat) (th ind stripes : ℚ)
    (maxS : Option ℕ) (fast : Bool) (sf1 sf2 : List ℕ → List ℕ)
    (hst : stripes = 1) (hsf : sf1 = sf2) :
    scanFrame m th ind stripes maxS fast sf1 =
      scanFrame m th ind stripes maxS fast sf2 ∧
    (maxS = none → ∀ g1 g2 : List ℕ → List ℕ,
      scanFrame m th ind stripes none fast g1 =
        scanFrame m th ind stripes none fast g2) := by
  constructor
  · rw [hsf]
  · intro _ g1 g2
    rfl

/-- Witness for C9 on a concrete frame, running the scan twice with the
same (identity) shuffle oracle. -/
theorem scan_deterministic_fixed_seed_witness :
    scanFrame (constMat 2 2 1) (1 / 2) (1 / 4) 1 none true id =
      scanFrame (constMat 2 2 1) (1 / 2) (1 / 4) 1 none true id ∧
    ((none : Option ℕ) = none → ∀ g1 g2 : List ℕ → List ℕ,
      scanFrame (constMat 2 2 1) (1 / 2) (1 / 4) 1 none true g1 =
        scanFrame (constMat 2 2 1) (1 / 2) (1 / 4) 1 none true g2) :=
  scan_deterministic_fixed_seed (constMat 2 2 1) (1 / 2) (1 / 4) 1 none true
    id id rfl rfl

/-! ## A concrete trace of the boundary search -/

/-- One-step unfolding of the `center` scan. -/
theorem findSubAux_cons (m : Mat) (b : ℕ) (th : ℚ) (c : ℕ) (rest : List ℕ)
    (sub : ℕ) (delta : ℝ) :
    findSubAux m b th (c :: rest) (sub, delta) =
      (if (if entropy (rowsSig m c (2 * (c : ℤ) - (b : ℤ))) ≠ 0 then
            entropy (rowsSig m b (c : ℤ)) /
              entropy (rowsSig m c (2 * (c : ℤ) - (b : ℤ)))
          else delta) < delta ∧
          (if entropy (rowsSig m c (2 * (c : ℤ) - (b : ℤ))) ≠ 0 then
            entropy (rowsSig m b (c : ℤ)) /
              entropy (rowsSig m c (2 * (c : ℤ) - (b : ℤ)))
          else delta) < (th : ℝ) then
        findSubAux m b th rest
          (c, if entropy (rowsSig m c (2 * (c : ℤ) - (b : ℤ))) ≠ 0 then
            entropy (rowsSig m b (c : ℤ)) /
              entropy (rowsSig m c (2 * (c : ℤ) - (b : ℤ)))
          else delta)
      else findSubAux m b th rest (sub, delta)) := by
  rfl

/-- The binary logarithm of 3 exceeds 4/3 (because 27 > 16). -/
theorem logb_three_gt : (4 : ℝ) / 3 < Real.logb 2 3 := by
  have hlog2 : 0 < Real.log 2 := Real.log_pos one_lt_two
  rw [Real.logb, lt_div_iff₀ hlog2]
  have h16 : Real.log 16 < Real.log 27 :=
    Real.log_lt_log (by norm_num) (by norm_num)
  rw [show (16 : ℝ) = 2 ^ (4 : ℕ) by norm_num,
    show (27 : ℝ) = 3 ^ (3 : ℕ) by norm_num, Real.log_pow, Real.log_pow] at h16
  push_cast at h16
  linarith

/-- Entropy of the signal `[0,1,0,0,1,1]` (two values, three each). -/
theorem entropy_rows_upper : entropy [0, 1, 0, 0, 1, 1] = 1 := by
  unfold entropy
  rw [show ([0, 1, 0, 0, 1, 1] : List ℕ).dedup = [0, 1] from rfl]
  simp only [List.map_cons, List.map_nil, List.sum_cons, List.sum_nil]
  rw [show (([0, 1, 0, 0, 1, 1] : List ℕ).count 0) = 3 from rfl,
    show (([0, 1, 0, 0, 1, 1] : List ℕ).count 1) = 3 from rfl,
    show ([0, 1, 0, 0, 1, 1] : List ℕ).length = 6 from rfl]
  have hlog : Real.logb 2 2 = 1 := Real.logb_self_eq_one one_lt_two
  push_cast
  rw [show (1 : ℝ) / (3 / 6) = 2 by norm_num]
  rw [hlog]
  ring

/-- Entropy of the signal `[1,1,3,4,5,6]`: `log2 3 + 2/3`. -/
theorem entropy_rows_lower :
    entropy [1, 1, 3, 4, 5, 6] = Real.logb 2 3 + 2 / 3 := by
  unfold entropy
  rw [show ([1, 1, 3, 4, 5, 6] : List ℕ).dedup = [1, 3, 4, 5, 6] from rfl]
  simp only [List.map_cons, List.map_nil, List.sum_cons, List.sum_nil]
  rw [show (([1, 1, 3, 4, 5, 6] : List ℕ).count 1) = 2 from rfl,
    show (([1, 1, 3, 4, 5, 6] : List ℕ).count 3) = 1 from rfl,
    show (([1, 1, 3, 4, 5, 6] : List ℕ).count 4) = 1 from rfl,
    show (([1, 1, 3, 4, 5, 6] : List ℕ).count 5) = 1 from rfl,
    show (([1, 1, 3, 4, 5, 6] : List ℕ).count 6) = 1 from rfl,
    show ([1, 1, 3, 4, 5, 6] : List ℕ).length = 6 from rfl]
  have h6 : Real.logb 2 6 = 1 + Real.logb 2 3 := by
    rw [show (6 : ℝ) = 2 * 3 by norm_num,
      Real.logb_mul two_ne_zero (by norm_num),
      Real.logb_self_eq_one one_lt_two]
  push_cast
  rw [show (1 : ℝ) / (2 / 6) = 3 by norm_num,
    show (1 : ℝ) / (1 / 6) = 6 by norm_num, h6]
  ring

/-- Claim C7 counterexample: on the concrete 6×2 frame `exFrame` with
threshold `0.5`, indent `0.5` (so `round(indent · h) = 3`), `stripes = 1`,
no stripe cap, and `fast` disabled, the boundary search's first iteration
moves the state from border `0` (with `start = 1`) to border `3`, and its
second iteration — reached from the initial state — neither stops nor
increases the border: it moves it back down to `1` (the `lower` window
`rot[1 : 2·1−3]` wraps around through Python's negative stop index to a
non-uniform region, producing a ratio of `0`). -/
theorem border_decrease_trace :
    (pyRound ((1 / 2 : ℚ) *
      ((sampledView exFrame 0 1 none id).h : ℚ))).toNat = 3 ∧
    scanStep (sampledView exFrame 0 1 none id) (1 / 2) 3 false ⟨0, none⟩ =
      some (Sum.inl ⟨3, some 1⟩) ∧
    scanStep (sampledView exFrame 0 1 none id) (1 / 2) 3 false ⟨3, some 1⟩ =
      some (Sum.inl ⟨1, some 1⟩) := by
  have hL := logb_three_gt
  have hLpos : (0 : ℝ) < Real.logb 2 3 + 2 / 3 := by
    have := Real.logb_pos one_lt_two (by norm_num : (1 : ℝ) < 3)
    linarith
  have hLne : Real.logb 2 3 + 2 / 3 ≠ 0 := hLpos.ne'
  have hcast : (((1 : ℚ) / 2 : ℚ) : ℝ) = 1 / 2 := by norm_num
  have hwin : 1 / (Real.logb 2 3 + 2 / 3) < (((1 : ℚ) / 2 : ℚ) : ℝ) := by
    rw [hcast]
    rw [div_lt_div_iff₀ hLpos two_pos]
    linarith
  -- signals of the sampled view
  have hgA : rowsSig (sampledView exFrame 0 1 none id) 0 (((1 : ℕ) : ℤ)) =
      [0, 1] := rfl
  have hgB : rowsSig (sampledView exFrame 0 1 none id) 0 (((3 : ℕ) : ℤ)) =
      [0, 1, 0, 0, 1, 1] := rfl
  have hgC : rowsSig (sampledView exFrame 0 1 none id) 3
      (2 * ((3 : ℕ) : ℤ) - ((0 : ℕ) : ℤ)) = [1, 1, 3, 4, 5, 6] := rfl
  have hgD : rowsSig (sampledView exFrame 0 1 none id) 2
      (2 * ((2 : ℕ) : ℤ) - ((0 : ℕ) : ℤ)) = [1, 1, 1, 1] := rfl
  have hgE : rowsSig (sampledView exFrame 0 1 none id) 1
      (2 * ((1 : ℕ) : ℤ) - ((0 : ℕ) : ℤ)) = [0, 0] := rfl
  have hgF : rowsSig (sampledView exFrame 0 1 none id) 3 (((3 : ℕ) : ℤ)) =
      [] := rfl
  have hgG : rowsSig (sampledView exFrame 0 1 none id) 3
      (2 * ((3 : ℕ) : ℤ) - ((3 : ℕ) : ℤ)) = [] := rfl
  have hgH : rowsSig (sampledView exFrame 0 1 none id) 3 (((2 : ℕ) : ℤ)) =
      [] := rfl
  have hgI : rowsSig (sampledView exFrame 0 1 none id) 2
      (2 * ((2 : ℕ) : ℤ) - ((3 : ℕ) : ℤ)) = [] := rfl
  have hgJ : rowsSig (sampledView exFrame 0 1 none id) 3 (((1 : ℕ) : ℤ)) =
      [] := rfl
  have hgK : rowsSig (sampledView exFrame 0 1 none id) 1
      (2 * ((1 : ℕ) : ℤ) - ((3 : ℕ) : ℤ)) = [0, 0, 1, 1, 1, 1, 3, 4] := rfl
  have hE4 : entropy [1, 1, 1, 1] = 0 := entropy_const (c := 1) (by decide)
  have hE5 : entropy [0, 0] = 0 := entropy_const (c := 0) (by decide)
  have hE6pos : 0 < entropy [0, 0, 1, 1, 1, 1, 3, 4] :=
    entropy_pos_of_ne (a := 0) (b := 3) (by simp) (by simp) (by norm_num)
  refine ⟨?_, ?_, ?_⟩
  · rw [show (sampledView exFrame 0 1 none id).h = 6 from rfl]
    rw [show pyRound ((1 / 2 : ℚ) * ((6 : ℕ) : ℚ)) = 3 by norm_num [pyRound]]
    rfl
  · -- first iteration: border 0 → 3
    have h01 : 0 < entropy (rowsSig (sampledView exFrame 0 1 none id) 0
        (((1 : ℕ) : ℤ))) := by
      rw [hgA]
      exact entropy_pos_of_ne (a := 0) (b := 1) (by simp) (by simp)
        (by norm_num)
    have hstart : (findStartAux (sampledView exFrame 0 1 none id) 0
        (List.range' (0 + 1) (3 - 0))).getD 3 = 1 := by
      rw [show List.range' (0 + 1) (3 - 0) = [1, 2, 3] from rfl]
      rw [findStartAux, if_pos h01]
      rfl
    have hsub1 : (findSubAux (sampledView exFrame 0 1 none id) 0 (1 / 2)
        [3, 2, 1] (0, (((1 : ℚ) / 2 : ℚ) : ℝ))).1 = 3 := by
      rw [findSubAux_cons, hgB, hgC, entropy_rows_upper, entropy_rows_lower]
      rw [if_pos hLne]
      rw [if_pos ⟨hwin, hwin⟩]
      rw [findSubAux_cons, hgD, hE4]
      rw [if_neg (by norm_num : ¬ (0 : ℝ) ≠ 0)]
      rw [if_neg (by rintro ⟨h1, _⟩; exact lt_irrefl _ h1)]
      rw [findSubAux_cons, hgE, hE5]
      rw [if_neg (by norm_num : ¬ (0 : ℝ) ≠ 0)]
      rw [if_neg (by rintro ⟨h1, _⟩; exact lt_irrefl _ h1)]
      rfl
    simp only [scanStep]
    rw [if_neg (show ¬ List.range' (0 + 1) (3 - 0) = [] by decide)]
    dsimp only
    rw [hstart]
    rw [show (List.range' 1 (3 + 1 - 1)).reverse = [3, 2, 1] from rfl]
    rw [hsub1]
    rw [if_neg (by decide : ¬ ((3 : ℕ) = 0 ∨ (3 : ℕ) = 0))]
    rfl
  · -- second iteration: border 3 → 1, neither stopping nor increasing
    have hsub2 : (findSubAux (sampledView exFrame 0 1 none id) 3 (1 / 2)
        [3, 2, 1] (0, (((1 : ℚ) / 2 : ℚ) : ℝ))).1 = 1 := by
      rw [findSubAux_cons, hgF, hgG, entropy_nil]
      rw [if_neg (by norm_num : ¬ (0 : ℝ) ≠ 0)]
      rw [if_neg (by rintro ⟨h1, _⟩; exact lt_irrefl _ h1)]
      rw [findSubAux_cons, hgH, hgI, entropy_nil]
      rw [if_neg (by norm_num : ¬ (0 : ℝ) ≠ 0)]
      rw [if_neg (by rintro ⟨h1, _⟩; exact lt_irrefl _ h1)]
      rw [findSubAux_cons, hgJ, hgK, entropy_nil]
      rw [if_pos hE6pos.ne']
      rw [zero_div]
      rw [if_pos ⟨by rw [hcast]; norm_num, by rw [hcast]; norm_num⟩]
      rfl
    simp only [scanStep]
    rw [if_pos (show List.range' (3 + 1) (3 - 3) = [] from rfl)]
    dsimp only
    rw [show (List.range' 1 (3 + 1 - 1)).reverse = [3, 2, 1] from rfl]
    rw [hsub2]
    rw [if_neg (by decide : ¬ ((1 : ℕ) = 0 ∨ (1 : ℕ) = 3))]
    rfl

end Enimda
